import Mathlib

/-!
Verification of the LeetCode Solution Assistant extension front end
(`popup.js`).  The development shallowly embeds the two algorithmic cores
of the program:

* the markdown renderer `renderMarkdown` together with its helper
  `escapeHtml`, modelled as pure functions over `List Char`.  Each regex
  replacement pass of the JavaScript source is embedded as an explicit
  left-to-right scanner that reproduces the regex engine's behaviour
  (anchoring, greediness, non-greedy matching and the relevant
  backtracking cases) on the source's patterns;
* the question/session synchronization state machine of the popup
  (`bootstrap`, `detectQuestionForTab`, `ensureQuestionInitialized`,
  `hydrateMessages`, `createSessionWithName`, `resetSession`,
  `handleSendMessage`, `handleReloadForNewQuestion`), modelled as pure
  state transformers over an explicit `AppState`.  Network requests are
  resolved by oracle parameters describing the outcome of each `fetch`,
  and every operation additionally returns the list of backend calls it
  issued, so that claims about calls being made (or suppressed) are
  expressible.
-/

/-- Whitespace as matched by the JavaScript `\s` class and by
`String.prototype.trim`/`trimEnd` (the characters relevant here). -/
def jsWs (c : Char) : Bool :=
  c = ' ' || c = '\t' || c = '\n' || c = '\r' || c = '\x0b' || c = '\x0c' ||
  c = ' ' || c = '﻿'

/-- The backtick character (code point 96). -/
def tickChar : Char := Char.ofNat 96

/-- Drop trailing JavaScript whitespace, as `String.prototype.trimEnd`. -/
def jsTrimEnd (s : List Char) : List Char :=
  (s.reverse.dropWhile jsWs).reverse

/-- Drop leading JavaScript whitespace, as `String.prototype.trimStart`. -/
def jsTrimStart (s : List Char) : List Char :=
  s.dropWhile jsWs

/-- Both-ends trim, as `String.prototype.trim`. -/
def jsTrim (s : List Char) : List Char :=
  jsTrimEnd (jsTrimStart s)

/-- Find the first occurrence of `pat` in `s`; return the part strictly
before the occurrence and the part strictly after it. -/
def findSplit (pat : List Char) : List Char → Option (List Char × List Char)
  | [] => if pat.isPrefixOf ([] : List Char) then some ([], []) else none
  | c :: rest =>
    if pat.isPrefixOf (c :: rest) then some ([], (c :: rest).drop pat.length)
    else (findSplit pat rest).map (fun p => (c :: p.1, p.2))

/-- One global single-character replacement pass, as the JavaScript
`str.replace(/c/g, r)` used by `escapeHtml`. -/
def replaceAllChar (c : Char) (r : List Char) : List Char → List Char
  | [] => []
  | x :: xs => (if x = c then r else [x]) ++ replaceAllChar c r xs

/-- Embedding of `escapeHtml` (popup.js lines 85-92): five sequential
global replacements, `&` first. -/
def escapeHtml (s : List Char) : List Char :=
  replaceAllChar '\'' ("&#39;".data)
    (replaceAllChar '"' ("&quot;".data)
      (replaceAllChar '>' ("&gt;".data)
        (replaceAllChar '<' ("&lt;".data)
          (replaceAllChar '&' ("&amp;".data) s))))

/-- The stored form of one fenced code block: the raw content is
trimmed at the end and escaped, then wrapped in `pre`/`code` tags
(popup.js line 101). -/
def mkCodeBlock (code : List Char) : List Char :=
  ("<pre><code>".data) ++ escapeHtml (jsTrimEnd code) ++ ("</code></pre>".data)

/-- The placeholder token `@@CODEBLOCKi@@` for block number `i`. -/
def placeholderFor (i : Nat) : List Char :=
  ("@@CODEBLOCK".data) ++ (toString i).data ++ ("@@".data)

/-- Three backticks, the fence delimiter. -/
def tick3 : List Char := [tickChar, tickChar, tickChar]

/-- Embedding of the fenced-code-block extraction
`md.replace(/```([\s\S]*?)```/g, ...)` (popup.js lines 98-103).  The
non-greedy global match pairs each fence opener with the nearest
following fence; if no closing fence exists the remaining text is left
untouched.  `acc` carries the blocks already extracted (the JavaScript
`codeBlocks` array); placeholders are numbered by its length.  `fuel`
bounds the recursion; it is called with the length of the text, which
always suffices since every match consumes at least six characters. -/
def extractFencesGo : Nat → List Char → List (List Char) →
    (List Char × List (List Char))
  | 0, s, acc => (s, acc)
  | fuel + 1, s, acc =>
    match findSplit tick3 s with
    | none => (s, acc)
    | some (pre, rest) =>
      match findSplit tick3 rest with
      | none => (s, acc)
      | some (code, rest2) =>
        let idx := acc.length
        let res := extractFencesGo fuel rest2 (acc ++ [mkCodeBlock code])
        (pre ++ placeholderFor idx ++ res.1, res.2)

/-- The extraction pass at full fuel. -/
def extractFences (s : List Char) : List Char × List (List Char) :=
  extractFencesGo s.length s []

/-- Backtracking helper shared by the heading and list-item scanners for
the degenerate case in which the pattern part `\s+` is followed by
`(.+)` but only whitespace remains up to the end of the string.  Given
the maximal whitespace run `W`, the regex engine gives characters back
to `(.+)$`, which then matches the last character of `W` that is not a
newline, provided at least one whitespace character is left for `\s+`
(so the index of that character must be at least 1).  Returns the part
of `W` consumed by the match and the remaining characters (all
newlines), or `none` when no such split exists. -/
def eosBacktrack (W : List Char) : Option (List Char × List Char) :=
  let tail := W.drop 1
  let trailingNl := (tail.reverse.takeWhile (fun c => c = '\n')).length
  if trailingNl = tail.length then none
  else
    let j := W.length - 1 - trailingNl
    some (W.take (j + 1), W.drop (j + 1))

/-- Try the heading match `/^(#{1,6})\s+(.+)$/` at a line start
(popup.js lines 109-112).  Returns the emitted replacement together
with the unconsumed rest of the text, or `none` when the line does not
match.  `\s+` is greedy and may cross newlines; `(.+)` cannot contain a
newline and `$` matches at a line end. -/
def tryHeading (s : List Char) : Option (List Char × List Char) :=
  let hashes := s.takeWhile (fun c => c = '#')
  if 1 ≤ hashes.length ∧ hashes.length ≤ 6 then
    let T := s.drop hashes.length
    let W := T.takeWhile jsWs
    if W.length = 0 then none
    else
      let rest := T.drop W.length
      match rest with
      | [] =>
        match eosBacktrack W with
        | none => none
        | some (_, remaining) =>
          some (("<h".data) ++ (toString hashes.length).data ++ (">".data) ++
                ("</h".data) ++ (toString hashes.length).data ++ (">".data),
                remaining)
      | _ :: _ =>
        let content := rest.takeWhile (fun c => c ≠ '\n')
        some (("<h".data) ++ (toString hashes.length).data ++ (">".data) ++
              jsTrim content ++
              ("</h".data) ++ (toString hashes.length).data ++ (">".data),
              rest.drop content.length)
  else none

/-- Scanner for the global multiline heading replacement.  The flag
records whether the current position is a line start (where `^` can
match).  Fuel decreases on every step; `headingPass` supplies the text
length, which suffices because every match consumes at least two
characters. -/
def headingGo : Nat → Bool → List Char → List Char
  | 0, _, s => s
  | fuel + 1, atStart, s =>
    match s with
    | [] => []
    | c :: rest =>
      if atStart then
        match tryHeading s with
        | some (out, remaining) => out ++ headingGo fuel false remaining
        | none =>
          if c = '\n' then c :: headingGo fuel true rest
          else c :: headingGo fuel false rest
      else
        if c = '\n' then c :: headingGo fuel true rest
        else c :: headingGo fuel false rest

/-- The heading pass (popup.js lines 109-112). -/
def headingPass (s : List Char) : List Char :=
  headingGo s.length true s

/-- Try the blockquote match `/^>\s?(.*)$/` at a line start (popup.js
line 115).  `\s?` greedily takes one whitespace character (possibly a
newline); `(. *)` then runs to the end of the line.  The match always
succeeds when the line starts with `>`. -/
def tryBlockquote (s : List Char) : Option (List Char × List Char) :=
  match s with
  | c :: t =>
    if c = '>' then
      let t2 := match t with
        | w :: t' => if jsWs w then t' else t
        | [] => t
      let content := t2.takeWhile (fun c => c ≠ '\n')
      some (("<blockquote><p>".data) ++ content ++ ("</p></blockquote>".data),
            t2.drop content.length)
    else none
  | [] => none

/-- Scanner for the global multiline blockquote replacement. -/
def blockquoteGo : Nat → Bool → List Char → List Char
  | 0, _, s => s
  | fuel + 1, atStart, s =>
    match s with
    | [] => []
    | c :: rest =>
      if atStart then
        match tryBlockquote s with
        | some (out, remaining) => out ++ blockquoteGo fuel false remaining
        | none =>
          if c = '\n' then c :: blockquoteGo fuel true rest
          else c :: blockquoteGo fuel false rest
      else
        if c = '\n' then c :: blockquoteGo fuel true rest
        else c :: blockquoteGo fuel false rest

/-- The blockquote pass (popup.js line 115). -/
def blockquotePass (s : List Char) : List Char :=
  blockquoteGo s.length true s

/-- Parse one iteration of the ordered-list block pattern
`\s*\d+\.\s+.+\n?` (popup.js line 118).  Returns the consumed raw text
and the rest, or `none` if the iteration cannot match here.  All the
whitespace parts are greedy and may cross newlines; `.+` cannot contain
a newline; the final `\n?` takes one newline if present. -/
def parseOlItem (s : List Char) : Option (List Char × List Char) :=
  let W0 := s.takeWhile jsWs
  let t1 := s.drop W0.length
  let D := t1.takeWhile Char.isDigit
  if D.length = 0 then none
  else
    match t1.drop D.length with
    | '.' :: t3 =>
      let W1 := t3.takeWhile jsWs
      if W1.length = 0 then none
      else
        let t4 := t3.drop W1.length
        match t4 with
        | [] =>
          match eosBacktrack W1 with
          | none => none
          | some (used, remaining) =>
            match remaining with
            | '\n' :: r2 =>
              some (W0 ++ D ++ '.' :: (used ++ ['\n']), r2)
            | _ => some (W0 ++ D ++ '.' :: used, remaining)
        | _ :: _ =>
          let content := t4.takeWhile (fun c => c ≠ '\n')
          match t4.drop content.length with
          | '\n' :: r2 =>
            some (W0 ++ D ++ '.' :: (W1 ++ content ++ ['\n']), r2)
          | r => some (W0 ++ D ++ '.' :: (W1 ++ content), r)
    | _ => none

/-- Parse one iteration of the unordered-list block pattern
`\s*[-*+]\s+.+\n?` (popup.js line 129). -/
def parseUlItem (s : List Char) : Option (List Char × List Char) :=
  let W0 := s.takeWhile jsWs
  let t1 := s.drop W0.length
  match t1 with
  | b :: t3 =>
    if b = '-' ∨ b = '*' ∨ b = '+' then
      let W1 := t3.takeWhile jsWs
      if W1.length = 0 then none
      else
        let t4 := t3.drop W1.length
        match t4 with
        | [] =>
          match eosBacktrack W1 with
          | none => none
          | some (used, remaining) =>
            match remaining with
            | '\n' :: r2 => some (W0 ++ b :: (used ++ ['\n']), r2)
            | _ => some (W0 ++ b :: used, remaining)
        | _ :: _ =>
          let content := t4.takeWhile (fun c => c ≠ '\n')
          match t4.drop content.length with
          | '\n' :: r2 => some (W0 ++ b :: (W1 ++ content ++ ['\n']), r2)
          | r => some (W0 ++ b :: (W1 ++ content), r)
    else none
  | [] => none

/-- Collect the maximal run of list-item iterations, starting with a
first successful iteration; returns the raw matched block and the rest.
Parametrized by the single-item parser so it serves both list kinds. -/
def listItemsGo (item : List Char → Option (List Char × List Char)) :
    Nat → List Char → (List Char × List Char)
  | 0, s => ([], s)
  | fuel + 1, s =>
    match item s with
    | none => ([], s)
    | some (consumed, rest) =>
      let res := listItemsGo item fuel rest
      (consumed ++ res.1, res.2)

/-- The per-line prefix strip `line.replace(/^\s*\d+\.\s+/, "")`
(popup.js line 122). -/
def stripOlPrefix (line : List Char) : List Char :=
  let W0 := line.takeWhile jsWs
  let t1 := line.drop W0.length
  let D := t1.takeWhile Char.isDigit
  if D.length = 0 then line
  else
    match t1.drop D.length with
    | '.' :: t3 =>
      let W1 := t3.takeWhile jsWs
      if W1.length = 0 then line else t3.drop W1.length
    | _ => line

/-- The per-line prefix strip `line.replace(/^\s*[-*+]\s+/, "")`
(popup.js line 133). -/
def stripUlPrefix (line : List Char) : List Char :=
  let W0 := line.takeWhile jsWs
  let t1 := line.drop W0.length
  match t1 with
  | b :: t3 =>
    if b = '-' ∨ b = '*' ∨ b = '+' then
      let W1 := t3.takeWhile jsWs
      if W1.length = 0 then line else t3.drop W1.length
    else line
  | [] => line

/-- The JavaScript `block.split(/\n/)`. -/
def jsSplitNl : List Char → List (List Char)
  | [] => [[]]
  | c :: rest =>
    if c = '\n' then [] :: jsSplitNl rest
    else
      match jsSplitNl rest with
      | h :: t => (c :: h) :: t
      | [] => [[c]]

/-- The ordered-list replacement function (popup.js lines 118-126):
trim the block, split it into lines, strip each line's numeric prefix
and wrap it in a list item. -/
def olRender (block : List Char) : List Char :=
  ("<ol>".data) ++
  ((jsSplitNl (jsTrim block)).map
    (fun line => ("<li>".data) ++ stripOlPrefix line ++ ("</li>".data))).flatten
  ++ ("</ol>".data)

/-- The unordered-list replacement function (popup.js lines 129-137). -/
def ulRender (block : List Char) : List Char :=
  ("<ul>".data) ++
  ((jsSplitNl (jsTrim block)).map
    (fun line => ("<li>".data) ++ stripUlPrefix line ++ ("</li>".data))).flatten
  ++ ("</ul>".data)

/-- Scanner for a global multiline block-list replacement; at each line
start it matches the maximal run of item iterations and replaces it via
`render`. -/
def listGo (item : List Char → Option (List Char × List Char))
    (render : List Char → List Char) :
    Nat → Bool → List Char → List Char
  | 0, _, s => s
  | fuel + 1, atStart, s =>
    match s with
    | [] => []
    | c :: rest =>
      if atStart then
        match item s with
        | some _ =>
          let res := listItemsGo item s.length s
          render res.1 ++ listGo item render fuel false res.2
        | none =>
          if c = '\n' then c :: listGo item render fuel true rest
          else c :: listGo item render fuel false rest
      else
        if c = '\n' then c :: listGo item render fuel true rest
        else c :: listGo item render fuel false rest

/-- The ordered-list pass (popup.js lines 118-126). -/
def olPass (s : List Char) : List Char :=
  listGo parseOlItem olRender s.length true s

/-- The unordered-list pass (popup.js lines 129-137). -/
def ulPass (s : List Char) : List Char :=
  listGo parseUlItem ulRender s.length true s

/-- The inline-code pass `text.replace(/`([^`]+)`/g, ...)` (popup.js
line 140): each single-backtick span with nonempty content is escaped
again and wrapped in a `code` element. -/
def inlineCodeGo : Nat → List Char → List Char
  | 0, s => s
  | fuel + 1, s =>
    match s with
    | [] => []
    | c :: rest =>
      if c = tickChar then
        match findSplit [tickChar] rest with
        | some ([], _) => c :: inlineCodeGo fuel rest
        | some (content, after) =>
          ("<code>".data) ++ escapeHtml content ++ ("</code>".data) ++
          inlineCodeGo fuel after
        | none => c :: inlineCodeGo fuel rest
      else c :: inlineCodeGo fuel rest

/-- The inline-code pass at full fuel. -/
def inlineCodePass (s : List Char) : List Char :=
  inlineCodeGo s.length s

/-- The bold pass `text.replace(/\*\*(.+?)\*\*/g, "<strong>$1</strong>")`
(popup.js line 143).  The non-greedy content is the shortest nonempty
newline-free stretch followed by a closing `**`; when no such closing
exists the engine advances one character past the first `*`. -/
def boldGo : Nat → List Char → List Char
  | 0, s => s
  | fuel + 1, s =>
    match s with
    | [] => []
    | c :: rest =>
      if c = '*' then
        match rest with
        | c2 :: rest1 =>
          if c2 = '*' then
            match rest1 with
            | a :: rest2 =>
              match findSplit ['*', '*'] rest2 with
              | some (b, after) =>
                if '\n' ∈ a :: b then c :: boldGo fuel rest
                else ("<strong>".data) ++ (a :: b) ++ ("</strong>".data) ++
                     boldGo fuel after
              | none => c :: boldGo fuel rest
            | [] => c :: boldGo fuel rest
          else c :: boldGo fuel rest
        | [] => c :: boldGo fuel rest
      else c :: boldGo fuel rest

/-- The bold pass at full fuel. -/
def boldPass (s : List Char) : List Char :=
  boldGo s.length s

/-- Delimiter class `[*_]` of the italic pattern. -/
def emDelim (c : Char) : Bool := c = '*' || c = '_'

/-- The italic pass `text.replace(/(\*|_)([^*_]+)\1/g, "<em>$2</em>")`
(popup.js line 144): a delimiter, a maximal nonempty run free of both
delimiters, then the same delimiter again. -/
def italicGo : Nat → List Char → List Char
  | 0, s => s
  | fuel + 1, s =>
    match s with
    | [] => []
    | c :: rest =>
      if emDelim c then
        let content := rest.takeWhile (fun x => !(emDelim x))
        if content.length = 0 then c :: italicGo fuel rest
        else
          match rest.drop content.length with
          | d :: after =>
            if d = c then
              ("<em>".data) ++ content ++ ("</em>".data) ++ italicGo fuel after
            else c :: italicGo fuel rest
          | [] => c :: italicGo fuel rest
      else c :: italicGo fuel rest

/-- The italic pass at full fuel. -/
def italicPass (s : List Char) : List Char :=
  italicGo s.length s

/-- The link pass
`text.replace(/\[([^\]]+)\]\(([^)\s]+)\)/g, '<a href="$2" ...>$1</a>')`
(popup.js line 147). -/
def linksGo : Nat → List Char → List Char
  | 0, s => s
  | fuel + 1, s =>
    match s with
    | [] => []
    | c :: rest =>
      if c = '[' then
        let label := rest.takeWhile (fun x => x ≠ ']')
        if label.length = 0 then c :: linksGo fuel rest
        else
          match rest.drop label.length with
          | ']' :: '(' :: t =>
            let url := t.takeWhile (fun x => x ≠ ')' ∧ ¬ jsWs x)
            if url.length = 0 then c :: linksGo fuel rest
            else
              match t.drop url.length with
              | ')' :: after =>
                ("<a href=".data) ++ '"' :: url ++
                ("\" target=\"_blank\" rel=\"noopener noreferrer\">".data) ++
                label ++ ("</a>".data) ++ linksGo fuel after
              | _ => c :: linksGo fuel rest
          | _ => c :: linksGo fuel rest
      else c :: linksGo fuel rest

/-- The link pass at full fuel. -/
def linksPass (s : List Char) : List Char :=
  linksGo s.length s

/-- Split on runs of two or more newlines, as `text.split(/\n{2,}/)`
(popup.js line 151). -/
def splitBlocksGo : Nat → List Char → List Char → List (List Char)
  | 0, s, acc => [acc.reverse ++ s]
  | fuel + 1, s, acc =>
    match s with
    | [] => [acc.reverse]
    | c :: rest =>
      if c = '\n' then
        let run := rest.takeWhile (fun x => x = '\n')
        if run.length ≥ 1 then
          acc.reverse :: splitBlocksGo fuel (rest.drop run.length) []
        else splitBlocksGo fuel rest (c :: acc)
      else splitBlocksGo fuel rest (c :: acc)

/-- Case-insensitive character-list prefix test (for the `/i` flag). -/
def ciPrefix : List Char → List Char → Bool
  | [], _ => true
  | _ :: _, [] => false
  | p :: ps, c :: cs => p.toLower = c.toLower && ciPrefix ps cs

/-- The structural-block test `/^<\/?(h\d|ul|ol|li|pre|blockquote)/i`
(popup.js line 155). -/
def structuralStart (s : List Char) : Bool :=
  match s with
  | c :: rest =>
    if c = '<' then
      let rest2 := match rest with
        | c2 :: r => if c2 = '/' then r else rest
        | [] => rest
      (match rest2 with
       | c1 :: c2 :: _ => c1.toLower = 'h' && c2.isDigit
       | _ => false) ||
      ciPrefix ("ul".data) rest2 || ciPrefix ("ol".data) rest2 ||
      ciPrefix ("li".data) rest2 || ciPrefix ("pre".data) rest2 ||
      ciPrefix ("blockquote".data) rest2
    else false
  | [] => false

/-- The paragraph-wrapping pass (popup.js lines 150-160): split on
blank-line runs, drop empty blocks, keep recognized structural blocks
trimmed, and wrap everything else in a paragraph. -/
def paragraphPass (s : List Char) : List Char :=
  ((splitBlocksGo s.length s []).map
    (fun block =>
      let trimmed := jsTrim block
      if trimmed.length = 0 then []
      else if structuralStart trimmed then trimmed
      else ("<p>".data) ++ trimmed ++ ("</p>".data))).flatten

/-- Expansion of JavaScript replacement patterns in
`String.prototype.replace` with a string replacement: `$$` is a
literal dollar, `$&` the matched text, a dollar-backtick the part
before the match and a dollar-apostrophe the part after it; anything
else is literal. -/
def expandRepl (before matched after : List Char) : List Char → List Char
  | [] => []
  | '$' :: c :: rest =>
    if c = '$' then '$' :: expandRepl before matched after rest
    else if c = '&' then matched ++ expandRepl before matched after rest
    else if c = tickChar then before ++ expandRepl before matched after rest
    else if c = '\'' then after ++ expandRepl before matched after rest
    else '$' :: c :: expandRepl before matched after rest
  | c :: rest => c :: expandRepl before matched after rest

/-- The JavaScript `text.replace(pattern, replacement)` with string
arguments: replace the first occurrence only, expanding `$` patterns in
the replacement. -/
def jsReplaceOnce (s pat repl : List Char) : List Char :=
  match findSplit pat s with
  | none => s
  | some (pre, post) => pre ++ expandRepl pre pat post repl ++ post

/-- The final restoration loop (popup.js lines 163-165): for each
stored block in order, replace the first occurrence of its placeholder. -/
def restoreBlocksGo : List Char → List (List Char) → Nat → List Char
  | t, [], _ => t
  | t, b :: bs, idx => restoreBlocksGo (jsReplaceOnce t (placeholderFor idx) b) bs (idx + 1)

/-- Embedding of `renderMarkdown` (popup.js lines 94-168): extract
fenced code blocks, escape the remaining text, then apply the heading,
blockquote, ordered-list, unordered-list, inline-code, bold, italic and
link passes, wrap paragraphs, and restore the code blocks. -/
def renderMarkdown (md : List Char) : List Char :=
  let ex := extractFences md
  restoreBlocksGo
    (paragraphPass
      (linksPass
        (italicPass
          (boldPass
            (inlineCodePass
              (ulPass
                (olPass
                  (blockquotePass
                    (headingPass
                      (escapeHtml ex.1))))))))))
    ex.2 0

/-!
State machine embedding.  A `SessionRec` mirrors the JavaScript session
object `{sessionId, username, authToken}`; absent or empty string
fields are modelled as `""` (the JavaScript falsy cases for strings).
The durable `chrome.storage.local` entries are carried inside
`AppState` (`storageSession`, `storageInit`), and the `InitMap` nested
object is an association list with object-key semantics (unique keys:
updates erase the key first).  Each operation takes oracle values
describing the outcomes of its network requests and returns the new
state together with the list of backend calls it issued.
-/

structure SessionRec where
  sessionId : String
  username : String
  authToken : String
deriving DecidableEq, Repr

/-- The `question` React state: exactly one status at a time, with
`number`/`title` populated only in the ready status (popup.js line 187
and the `setQuestion` calls). -/
inductive Question where
  | checking : Question
  | loading : Question
  | notLeetCode : Question
  | error (message : String) : Question
  | ready (number : Nat) (title : String) : Question
deriving DecidableEq, Repr

/-- The `pendingQuestion` payload `{number, title}`. -/
structure PendingQ where
  number : Nat
  title : String
deriving DecidableEq, Repr

/-- One transcript entry; `temp` marks the optimistic placeholder
appended by `handleSendMessage`. -/
structure Msg where
  role : String
  content : String
  temp : Bool
  key : Option String
deriving DecidableEq, Repr

/-- The per-session initialized-questions map: question number to the
`Date.now()` timestamp recorded on successful registration. -/
def QMap : Type := List (Nat × Nat)

instance : DecidableEq QMap := by
  unfold QMap
  infer_instance

instance : Repr QMap := by
  unfold QMap
  infer_instance

/-- The whole `lcAssistantInitialized` object: session id to `QMap`. -/
def InitMap : Type := List (String × QMap)

instance : DecidableEq InitMap := by
  unfold InitMap
  infer_instance

instance : Repr InitMap := by
  unfold InitMap
  infer_instance

/-- Object-key lookup. -/
def lookupKey {α : Type} (m : List (String × α)) (k : String) : Option α :=
  (m.find? (fun p => p.1 = k)).map (fun p => p.2)

/-- Object-key erase (JavaScript rest-spread removal of one key). -/
def eraseKey {α : Type} (m : List (String × α)) (k : String) :
    List (String × α) :=
  m.filter (fun p => p.1 ≠ k)

/-- Object-key set (spread plus one keyed field). -/
def setKey {α : Type} (m : List (String × α)) (k : String) (v : α) :
    List (String × α) :=
  eraseKey m k ++ [(k, v)]

/-- Nested numeric-key lookup inside a `QMap`. -/
def lookupQ (m : QMap) (n : Nat) : Option Nat :=
  (m.find? (fun p => p.1 = n)).map (fun p => p.2)

/-- Nested numeric-key set inside a `QMap`. -/
def setQ (m : QMap) (n : Nat) (v : Nat) : QMap :=
  m.filter (fun p => p.1 ≠ n) ++ [(n, v)]

/-- Truthiness of `sessionMap[questionNumber]`: the entry exists and
its timestamp is a truthy number (nonzero). -/
def entryTruthy (m : QMap) (n : Nat) : Bool :=
  match lookupQ m n with
  | some t => t ≠ 0
  | none => false

/-- The whole popup state: React state hooks plus the durable storage
mirror and the `lastTabUrlRef` ref. -/
structure AppState where
  session : Option SessionRec
  username : String
  question : Question
  pendingQuestion : Option PendingQ
  messages : List Msg
  chatInput : String
  busy : Bool
  isSending : Bool
  status : String
  refreshingQuestion : Bool
  storageSession : Option SessionRec
  storageInit : InitMap
  lastTabUrl : Option String
deriving DecidableEq, Repr

/-- The initial hook values at mount (popup.js lines 185-197), over the
pre-existing durable storage contents. -/
def initialState (ss : Option SessionRec) (si : InitMap) : AppState where
  session := none
  username := ""
  question := Question.checking
  pendingQuestion := none
  messages := []
  chatInput := ""
  busy := false
  isSending := false
  status := ""
  refreshingQuestion := false
  storageSession := ss
  storageInit := si
  lastTabUrl := none

/-- A backend request, tagged with the auth headers attached to it:
`none` models the empty header object returned by `buildAuthHeaders`
when a credential is missing. -/
inductive Call where
  | createSession (username : String) : Call
  | questions (headers : Option (String × String)) (number : Nat)
      (title : Option String) : Call
  | whoami (headers : Option (String × String)) : Call
  | chat (headers : Option (String × String)) (text : String) : Call
  | deleteSession (headers : Option (String × String)) : Call
deriving DecidableEq, Repr

/-- Embedding of `buildAuthHeaders` (popup.js lines 12-18): both
credentials present gives the two headers, otherwise the empty object. -/
def buildAuthHeaders (sessionId authToken : String) :
    Option (String × String) :=
  if sessionId = "" ∨ authToken = "" then none
  else some (sessionId, authToken)

/-- Outcome oracle for one backend `fetch`: either the request
succeeded end to end, or it failed with a thrown error message (HTTP
non-ok, a JSON `ok: false` payload, a JSON parse failure or a network
throw — the source collapses all of these into one thrown `Error`). -/
inductive NetOutcome where
  | ok : NetOutcome
  | fail (message : String) : NetOutcome
deriving DecidableEq, Repr

/-- Embedding of `ensureQuestionInitialized` (popup.js lines 271-304).
Reads the initialized map, returns early when the `(sessionId,
questionNumber)` entry is truthy, throws when the auth token is
missing, and otherwise issues the `POST /questions` call; on success it
records the entry with the current timestamp `now`.  Returns the new
map, the issued calls and the thrown-or-ok result. -/
def ensureQuestionInitialized (initMap : InitMap) (sessionId authToken : String)
    (questionNumber : Nat) (questionTitle : String) (now : Nat)
    (net : NetOutcome) : InitMap × List Call × Except String Unit :=
  let sessionMap := (lookupKey initMap sessionId).getD []
  if entryTruthy sessionMap questionNumber then (initMap, [], Except.ok ())
  else if authToken = "" then
    (initMap, [], Except.error "Session auth token missing.")
  else
    let call := Call.questions (buildAuthHeaders sessionId authToken)
      questionNumber (if questionTitle = "" then none else some questionTitle)
    match net with
    | NetOutcome.fail msg => (initMap, [call], Except.error msg)
    | NetOutcome.ok =>
      (setKey initMap sessionId (setQ sessionMap questionNumber now),
       [call], Except.ok ())

/-- Outcome oracle for the `GET /whoami` transcript fetch: failure
throws; success carries `data.messages` when it is an array (`none`
models a payload without a message array, in which case the transcript
is left unchanged). -/
inductive HydOutcome where
  | ok (messages : Option (List (String × String × Option String))) : HydOutcome
  | fail (message : String) : HydOutcome
deriving DecidableEq, Repr

/-- The mapping applied to fetched messages (popup.js lines 322-328):
role, content, and a key from `ts` or `role-idx`. -/
def mapFetched (raw : List (String × String × Option String)) : List Msg :=
  (raw.enum).map (fun p =>
    { role := p.2.1, content := p.2.2.1, temp := false,
      key := some ((p.2.2.2).getD (p.2.1 ++ "-" ++ toString p.1)) })

/-- Embedding of `hydrateMessages` (popup.js lines 306-330): throws
without a call when the auth token is missing, otherwise issues the
`whoami` call; on success with an array payload the transcript is
replaced wholesale.  Returns the transcript replacement (if any), the
issued calls and the result. -/
def hydrateMessages (sessionId authToken : String) (net : HydOutcome) :
    Option (List Msg) × List Call × Except String Unit :=
  if authToken = "" then
    (none, [], Except.error "Session auth token missing.")
  else
    let call := Call.whoami (buildAuthHeaders sessionId authToken)
    match net with
    | HydOutcome.fail msg => (none, [call], Except.error msg)
    | HydOutcome.ok (some raw) => (some (mapFetched raw), [call], Except.ok ())
    | HydOutcome.ok none => (none, [call], Except.ok ())

/-- Embedding of `initializeForQuestion` (popup.js lines 256-269):
sets a syncing status, fails fast on a missing auth token, then runs
registration and hydration, catching any error into the status line. -/
def initializeForQuestion (st : AppState) (sess : SessionRec)
    (questionNumber : Nat) (questionTitle : String) (now : Nat)
    (netQ : NetOutcome) (netH : HydOutcome) : AppState × List Call :=
  if sess.authToken = "" then
    ({ st with status := "Missing session auth token. Reset the session." }, [])
  else
    let r := ensureQuestionInitialized st.storageInit sess.sessionId
      sess.authToken questionNumber questionTitle now netQ
    match r.2.2 with
    | Except.error msg =>
      ({ st with storageInit := r.1, status := msg }, r.2.1)
    | Except.ok _ =>
      let h := hydrateMessages sess.sessionId sess.authToken netH
      match h.2.2 with
      | Except.error msg =>
        ({ st with storageInit := r.1, status := msg }, r.2.1 ++ h.2.1)
      | Except.ok _ =>
        ({ st with storageInit := r.1, messages := (h.1).getD st.messages, status := "" },
         r.2.1 ++ h.2.1)

/-- Trim a `String` with JavaScript semantics. -/
def jsTrimStr (s : String) : String :=
  String.mk (jsTrim s.data)

/-- Substring test (used for the URL regex test). -/
def containsSub (pat s : List Char) : Bool :=
  (findSplit pat s).isSome

/-- Embedding of `isLeetCodeQuestionUrl` (popup.js lines 20-22): the
case-insensitive unanchored test for `https?://leetcode.com/problems/`
inside the URL. -/
def isLeetCodeQuestionUrl (url : String) : Bool :=
  let low := url.data.map Char.toLower
  containsSub ("http://leetcode.com/problems/".data) low ||
  containsSub ("https://leetcode.com/problems/".data) low

/-- A browser tab as observed by the popup. -/
structure Tab where
  url : String
  id : Nat
deriving DecidableEq, Repr

/-- The resolved result of the in-page extraction script
(`extractQuestionFromTab`, popup.js lines 29-70).  The script scrapes
the DOM, so its output is an oracle here; empty strings model the
falsy `null` fields. -/
structure ExtractResult where
  ok : Bool
  questionNumber : String
  title : String
  reason : String
deriving DecidableEq, Repr

/-- JavaScript `Number(...)` on the digit strings produced by the
extraction regexes `/^(\d+)/` and `/"questionFrontendId":"(\d+)"/`. -/
def parseDigits (s : String) : Nat :=
  s.data.foldl (fun n c => n * 10 + (c.toNat - 48)) 0

/-- The fallback title `pageInfo.title || "LeetCode Question #<n>"`
(popup.js lines 244 and 483). -/
def titleOrDefault (title qn : String) : String :=
  if title = "" then "LeetCode Question #" ++ qn else title

/-- The guard `current.status === "ready" && current.number === n`. -/
def questionMatchesNumber (q : Question) (n : Nat) : Bool :=
  match q with
  | Question.ready num _ => num = n
  | _ => false

/-- Embedding of `detectQuestionForTab` (popup.js lines 468-498).  The
extraction oracle is `none` when the in-page script throws (the catch
logs and leaves all state unchanged).  A missing or non-question tab
clears the pending question; an extraction failure clears it; a result
matching the current ready question clears it; a differing result sets
it unless a pending question with the same number is already present. -/
def detectQuestionForTab (st : AppState) (tab : Option Tab)
    (ext : Option ExtractResult) : AppState :=
  match tab with
  | none => { st with pendingQuestion := none }
  | some t =>
    if ¬ isLeetCodeQuestionUrl t.url then { st with pendingQuestion := none }
    else
      match ext with
      | none => st
      | some info =>
        if info.ok = false ∨ info.questionNumber = "" then
          { st with pendingQuestion := none }
        else
          let n := parseDigits info.questionNumber
          let ttl := titleOrDefault info.title info.questionNumber
          if questionMatchesNumber st.question n then
            { st with pendingQuestion := none }
          else
            match st.pendingQuestion with
            | some p =>
              if p.number = n then st
              else { st with pendingQuestion := some ⟨n, ttl⟩ }
            | none => { st with pendingQuestion := some ⟨n, ttl⟩ }

/-- Outcome oracle for `POST /create_session/{name}`: failure throws
with a message; success carries the payload fields (empty strings model
absent fields, in particular a missing `auth_token`). -/
inductive CreateOutcome where
  | ok (session_id : String) (username : String) (auth_token : String) :
      CreateOutcome
  | fail (message : String) : CreateOutcome
deriving DecidableEq, Repr

/-- Oracle bundle for `createSessionWithName`: the create-session
outcome plus the timestamp and the oracles of the initialization it may
trigger. -/
structure CreateOracle where
  create : CreateOutcome
  now : Nat
  netQ : NetOutcome
  netH : HydOutcome
deriving DecidableEq, Repr

/-- Embedding of `createSessionWithName` (popup.js lines 340-378).
Always issues the create call; requires an auth token in the response;
on success stores the session durably, clears the transcript, runs
initialization when the target question is ready, and finishes with a
`Session ready.` status. -/
def createSessionWithName (st : AppState) (name : String)
    (questionOverride : Option Question) (o : CreateOracle) :
    AppState × List Call :=
  let targetQuestion := questionOverride.getD st.question
  let st1 := { st with busy := true, status := "Creating session..." }
  let call := Call.createSession name
  match o.create with
  | CreateOutcome.fail msg =>
    ({ st1 with status := msg, busy := false }, [call])
  | CreateOutcome.ok sid uname tok =>
    if tok = "" then
      ({ st1 with status := "Server did not return an auth token.", busy := false },
       [call])
    else
      let newSession : SessionRec :=
        ⟨sid, if uname = "" then name else uname, tok⟩
      let st2 := { st1 with
        session := some newSession
        storageSession := some newSession
        messages := [] }
      match targetQuestion with
      | Question.ready n ttl =>
        let r := initializeForQuestion st2 newSession n ttl o.now o.netQ o.netH
        ({ r.1 with status := "Session ready.", busy := false }, call :: r.2)
      | _ => ({ st2 with status := "Session ready.", busy := false }, [call])

/-- Embedding of `handleCreateSession` (popup.js lines 332-338): a
blank trimmed username is a no-op without any call. -/
def handleCreateSession (st : AppState) (o : CreateOracle) :
    AppState × List Call :=
  let name := jsTrimStr st.username
  if name = "" then (st, [])
  else createSessionWithName st name none o

/-- Embedding of `resetSession` (popup.js lines 430-466).  When a
session exists the delete call is issued (with whatever headers
`buildAuthHeaders` produces); its failure only contributes an error
status.  The finally block always removes the durable session entry,
removes the session's initialized-map entry when present, clears the
session and the transcript. -/
def resetSession (st : AppState) (net : NetOutcome) : AppState × List Call :=
  let currentSession := st.session
  let outcome : String × List Call :=
    match currentSession with
    | none => ("", [])
    | some s =>
      let call := Call.deleteSession (buildAuthHeaders s.sessionId s.authToken)
      match net with
      | NetOutcome.ok => ("", [call])
      | NetOutcome.fail msg => (msg, [call])
  let newInit : InitMap :=
    match currentSession with
    | some s =>
      if s.sessionId ≠ "" ∧ (lookupKey st.storageInit s.sessionId).isSome then
        eraseKey st.storageInit s.sessionId
      else st.storageInit
    | none => st.storageInit
  ({ st with
      session := none
      messages := []
      busy := false
      status := outcome.1
      storageSession := none
      storageInit := newInit },
   outcome.2)

/-- Oracle bundle for `bootstrap`: the active tab, the resolved
extraction result, and the oracles of the initialization it may run. -/
structure BootOracle where
  activeTab : Option Tab
  extract : ExtractResult
  now : Nat
  netQ : NetOutcome
  netH : HydOutcome
deriving DecidableEq, Repr

/-- Embedding of `bootstrap` (popup.js lines 213-254).  Adopts a valid
stored session (clearing legacy entries without an auth token), reads
the active tab, classifies the URL, extracts the question, and on a
ready question runs initialization with the originally read stored
session (even a legacy one — faithful to the `if (storedSession)`
check).  Returns the ready question's number and title when reached. -/
def bootstrap (st : AppState) (o : BootOracle) :
    AppState × Option (Nat × String) × List Call :=
  let storedSession := st.storageSession
  let st1 :=
    match storedSession with
    | some s =>
      if s.sessionId ≠ "" ∧ s.authToken ≠ "" then
        { st with session := some s, username := s.username }
      else { st with storageSession := none }
    | none => st
  match o.activeTab with
  | none =>
    ({ st1 with question := Question.error "No active tab found." }, none, [])
  | some tab =>
    if ¬ isLeetCodeQuestionUrl tab.url then
      ({ st1 with question := Question.notLeetCode }, none, [])
    else
      let st2 := { st1 with question := Question.loading }
      let info := o.extract
      if info.ok = false ∨ info.questionNumber = "" then
        let msg := if info.reason = "" then "Couldn't read question details."
          else info.reason
        ({ st2 with question := Question.error msg }, none, [])
      else
        let n := parseDigits info.questionNumber
        let ttl := titleOrDefault info.title info.questionNumber
        let st3 := { st2 with
          question := Question.ready n ttl
          lastTabUrl := some tab.url }
        match storedSession with
        | some s =>
          let r := initializeForQuestion st3 s n ttl o.now o.netQ o.netH
          (r.1, some (n, ttl), r.2)
        | none => (st3, some (n, ttl), [])

/-- Embedding of `handleReloadForNewQuestion` (popup.js lines 539-580).
Clears the pending question, sets the question to loading, destroys an
existing session (best-effort delete, unconditional local cleanup),
re-runs `bootstrap`, and when a username had been entered re-creates a
session against the freshly detected question (falling back to the
handler closure's pre-reload question state). -/
def handleReloadForNewQuestion (st : AppState) (netD : NetOutcome)
    (bo : BootOracle) (co : CreateOracle) : AppState × List Call :=
  let st1 := { st with
    refreshingQuestion := true
    pendingQuestion := none
    question := Question.loading }
  let currentSession := st.session
  let currentUsername := jsTrimStr st.username
  let cleanup : AppState × List Call :=
    match currentSession with
    | none => (st1, [])
    | some s =>
      let call := Call.deleteSession (buildAuthHeaders s.sessionId s.authToken)
      let newInit : InitMap :=
        if s.sessionId ≠ "" ∧ (lookupKey st1.storageInit s.sessionId).isSome then
          eraseKey st1.storageInit s.sessionId
        else st1.storageInit
      ({ st1 with
          storageSession := none
          storageInit := newInit
          session := none
          messages := [] },
       match netD with
       | NetOutcome.ok => [call]
       | NetOutcome.fail _ => [call])
  let b := bootstrap cleanup.1 bo
  let after : AppState × List Call :=
    if currentUsername = "" then (b.1, [])
    else
      let targetQ : Option Question :=
        match b.2.1 with
        | some (n, t) => some (Question.ready n t)
        | none => some st.question
      createSessionWithName b.1 currentUsername targetQ co
  ({ after.1 with refreshingQuestion := false },
   cleanup.2 ++ b.2.2 ++ after.2)

/-- Embedding of `handleSendMessage` (popup.js lines 380-428).  Guarded
on a session, a ready question, not already sending, a present auth
token and nonempty trimmed input; optimistically appends the user turn
and a placeholder; on any failure the placeholder is replaced by a
synthesized error turn; on success the transcript is refreshed from the
backend. -/
def handleSendMessage (st : AppState) (netC : NetOutcome) (netH : HydOutcome) :
    AppState × List Call :=
  match st.session with
  | none => (st, [])
  | some s =>
    match st.question with
    | Question.ready _ _ =>
      if st.isSending then (st, [])
      else if s.authToken = "" then
        ({ st with status := "Session auth token missing. Reset the session." },
         [])
      else
        let text := jsTrimStr st.chatInput
        if text = "" then (st, [])
        else
          let userMessage : Msg := ⟨"user", text, false, none⟩
          let tempMessage : Msg := ⟨"assistant", "Thinking...", true, none⟩
          let st1 := { st with
            chatInput := ""
            isSending := true
            messages := st.messages ++ [userMessage, tempMessage]
            status := "Sending message..." }
          let call := Call.chat (buildAuthHeaders s.sessionId s.authToken) text
          let failState (msg : String) (calls : List Call) :
              AppState × List Call :=
            ({ st1 with
               messages := (st1.messages.filter (fun m => ¬ m.temp)) ++
                 [⟨"assistant", "Error: " ++ msg, false, none⟩]
               status := msg
               isSending := false }, calls)
          match netC with
          | NetOutcome.fail msg => failState msg [call]
          | NetOutcome.ok =>
            let h := hydrateMessages s.sessionId s.authToken netH
            match h.2.2 with
            | Except.error msg => failState msg (call :: h.2.1)
            | Except.ok _ =>
              ({ st1 with
                 messages := (h.1).getD st1.messages
                 status := ""
                 isSending := false }, call :: h.2.1)
    | _ => (st, [])

/-!
Lemmas about the basic scanners.
-/

theorem findSplit_nil {pat : List Char} (h : pat ≠ []) :
    findSplit pat [] = none := by
  cases pat with
  | nil => exact absurd rfl h
  | cons p pr => simp [findSplit, List.isPrefixOf]

theorem findSplit_cons_pos {pat s : List Char} {c : Char}
    (h : pat.isPrefixOf (c :: s) = true) :
    findSplit pat (c :: s) = some ([], (c :: s).drop pat.length) := by
  simp [findSplit, h]

theorem findSplit_cons_neg {pat s : List Char} {c : Char}
    (h : pat.isPrefixOf (c :: s) = false) :
    findSplit pat (c :: s) =
      (findSplit pat s).map (fun p => (c :: p.1, p.2)) := by
  simp [findSplit, h]

theorem isPrefixOf_cons_false {p c : Char} {pr s : List Char} (h : p ≠ c) :
    (p :: pr).isPrefixOf (c :: s) = false := by
  simp [List.isPrefixOf, h]

theorem findSplit_none_of_not_mem {p : Char} {pr s : List Char}
    (h : p ∉ s) : findSplit (p :: pr) s = none := by
  induction s with
  | nil => exact findSplit_nil (by simp)
  | cons c rest ih =>
    have hpc : p ≠ c := fun he => h (he ▸ List.mem_cons_self c rest)
    rw [findSplit_cons_neg (isPrefixOf_cons_false hpc)]
    rw [ih (fun hm => h (List.mem_cons_of_mem c hm))]
    rfl

theorem findSplit_append_of_not_mem {p : Char} {pr u w : List Char}
    (h : p ∉ u) :
    findSplit (p :: pr) (u ++ w) =
      (findSplit (p :: pr) w).map (fun q => (u ++ q.1, q.2)) := by
  induction u with
  | nil =>
    simp only [List.nil_append]
    cases hf : findSplit (p :: pr) w with
    | none => rfl
    | some q => rfl
  | cons c u' ih =>
    have hpc : p ≠ c := fun he => h (he ▸ List.mem_cons_self c u')
    have h' : p ∉ u' := fun hm => h (List.mem_cons_of_mem c hm)
    rw [List.cons_append, findSplit_cons_neg (isPrefixOf_cons_false hpc), ih h']
    cases hf : findSplit (p :: pr) w with
    | none => rfl
    | some q => rfl

theorem replaceAllChar_append (c : Char) (r a b : List Char) :
    replaceAllChar c r (a ++ b) =
      replaceAllChar c r a ++ replaceAllChar c r b := by
  induction a with
  | nil => simp [replaceAllChar]
  | cons x xs ih => simp [replaceAllChar, ih]

theorem escapeHtml_append (a b : List Char) :
    escapeHtml (a ++ b) = escapeHtml a ++ escapeHtml b := by
  simp [escapeHtml, replaceAllChar_append]

theorem escapeHtml_cons (a : Char) (s : List Char) :
    escapeHtml (a :: s) = escapeHtml [a] ++ escapeHtml s := by
  have := escapeHtml_append [a] s
  simpa using this

theorem escapeHtml_singleton_plain {c : Char} (h1 : c ≠ '&') (h2 : c ≠ '<')
    (h3 : c ≠ '>') (h4 : c ≠ '"') (h5 : c ≠ '\'') :
    escapeHtml [c] = [c] := by
  simp [escapeHtml, replaceAllChar, h1, h2, h3, h4, h5]

theorem escapeHtml_nil : escapeHtml [] = [] := by
  simp [escapeHtml, replaceAllChar]

theorem escapeHtml_id {s : List Char}
    (h : ∀ c ∈ s, c ≠ '&' ∧ c ≠ '<' ∧ c ≠ '>' ∧ c ≠ '"' ∧ c ≠ '\'') :
    escapeHtml s = s := by
  induction s with
  | nil => exact escapeHtml_nil
  | cons a s ih =>
    have ha := h a (List.mem_cons_self a s)
    rw [escapeHtml_cons,
      escapeHtml_singleton_plain ha.1 ha.2.1 ha.2.2.1 ha.2.2.2.1 ha.2.2.2.2,
      ih (fun c hc => h c (List.mem_cons_of_mem a hc))]
    rfl

/-- After escaping, no raw markup-relevant character remains: the
output of `escapeHtml` never contains `<`, `>`, `"` or `'`. -/
theorem escapeHtml_no_markup (s : List Char) :
    ∀ c ∈ escapeHtml s, c ≠ '<' ∧ c ≠ '>' ∧ c ≠ '"' ∧ c ≠ '\'' := by
  induction s with
  | nil => rw [escapeHtml_nil]; intro c hc; cases hc
  | cons a s ih =>
    rw [escapeHtml_cons]
    intro c hc
    rcases List.mem_append.mp hc with hc1 | hc2
    · by_cases h1 : a = '&'
      · subst h1
        exact (by decide :
          ∀ x ∈ escapeHtml ['&'], x ≠ '<' ∧ x ≠ '>' ∧ x ≠ '"' ∧ x ≠ '\'') c hc1
      · by_cases h2 : a = '<'
        · subst h2
          exact (by decide :
            ∀ x ∈ escapeHtml ['<'], x ≠ '<' ∧ x ≠ '>' ∧ x ≠ '"' ∧ x ≠ '\'') c hc1
        · by_cases h3 : a = '>'
          · subst h3
            exact (by decide :
              ∀ x ∈ escapeHtml ['>'], x ≠ '<' ∧ x ≠ '>' ∧ x ≠ '"' ∧ x ≠ '\'') c hc1
          · by_cases h4 : a = '"'
            · subst h4
              exact (by decide :
                ∀ x ∈ escapeHtml ['"'], x ≠ '<' ∧ x ≠ '>' ∧ x ≠ '"' ∧ x ≠ '\'') c hc1
            · by_cases h5 : a = '\''
              · subst h5
                exact (by decide :
                  ∀ x ∈ escapeHtml ['\''], x ≠ '<' ∧ x ≠ '>' ∧ x ≠ '"' ∧ x ≠ '\'') c hc1
              · rw [escapeHtml_singleton_plain h1 h2 h3 h4 h5] at hc1
                have hca := List.mem_singleton.mp hc1
                subst hca
                exact ⟨h2, h3, h4, h5⟩
    · exact ih c hc2

theorem extractFencesGo_blocks {fuel : Nat} :
    ∀ {s : List Char} {acc : List (List Char)},
    (∀ b ∈ acc, ∃ code, b = mkCodeBlock code) →
    ∀ b ∈ (extractFencesGo fuel s acc).2, ∃ code, b = mkCodeBlock code := by
  induction fuel with
  | zero => intro s acc h; exact h
  | succ fuel ih =>
    intro s acc h
    rcases h1 : findSplit tick3 s with _ | ⟨pre, rest⟩
    · simp only [extractFencesGo, h1]; exact h
    · rcases h2 : findSplit tick3 rest with _ | ⟨code, rest2⟩
      · simp only [extractFencesGo, h1, h2]; exact h
      · simp only [extractFencesGo, h1, h2]
        apply ih
        intro b hb
        rcases List.mem_append.mp hb with hb1 | hb2
        · exact h b hb1
        · rw [List.mem_singleton.mp hb2]
          exact ⟨code, rfl⟩

theorem tick3_cons : tick3 = tickChar :: [tickChar, tickChar] := rfl

theorem extractFencesGo_id {fuel : Nat} {s : List Char}
    {acc : List (List Char)} (h : tickChar ∉ s) :
    extractFencesGo fuel s acc = (s, acc) := by
  cases fuel with
  | zero => rfl
  | succ fuel =>
    simp only [extractFencesGo, tick3_cons, findSplit_none_of_not_mem h]

theorem extractFences_id {s : List Char} (h : tickChar ∉ s) :
    extractFences s = (s, []) :=
  extractFencesGo_id h

theorem takeWhile_nil_of_head {p : Char → Bool} {c : Char} {r : List Char}
    (h : p c = false) : (c :: r).takeWhile p = [] := by
  simp [List.takeWhile, h]

theorem tryHeading_none {s : List Char}
    (h : s.takeWhile (fun c => c = '#') = []) : tryHeading s = none := by
  simp [tryHeading, h]

theorem headingGo_id {fuel : Nat} :
    ∀ {s : List Char} (flag : Bool), '#' ∉ s → headingGo fuel flag s = s := by
  induction fuel with
  | zero => intro s flag _; rfl
  | succ fuel ih =>
    intro s flag h
    cases s with
    | nil => rfl
    | cons c rest =>
      have hc : c ≠ '#' := fun he => h (he ▸ List.mem_cons_self c rest)
      have hr : '#' ∉ rest := fun hm => h (List.mem_cons_of_mem c hm)
      have ht : tryHeading (c :: rest) = none :=
        tryHeading_none (takeWhile_nil_of_head (by simp [hc]))
      cases flag with
      | true =>
        simp only [headingGo, ht]
        by_cases hnl : c = '\n' <;> simp [hnl, ih _ hr]
      | false =>
        simp only [headingGo]
        by_cases hnl : c = '\n' <;> simp [hnl, ih _ hr]

theorem headingPass_id {s : List Char} (h : '#' ∉ s) : headingPass s = s :=
  headingGo_id _ h

theorem tryBlockquote_none {s : List Char}
    (h : s.head? = some '>' → False) : tryBlockquote s = none := by
  cases s with
  | nil => rfl
  | cons c t =>
    have hc : c ≠ '>' := fun he => h (by simp [he])
    simp [tryBlockquote, hc]

theorem blockquoteGo_id {fuel : Nat} :
    ∀ {s : List Char} (flag : Bool), '>' ∉ s → blockquoteGo fuel flag s = s := by
  induction fuel with
  | zero => intro s flag _; rfl
  | succ fuel ih =>
    intro s flag h
    cases s with
    | nil => rfl
    | cons c rest =>
      have hc : c ≠ '>' := fun he => h (he ▸ List.mem_cons_self c rest)
      have hr : '>' ∉ rest := fun hm => h (List.mem_cons_of_mem c hm)
      have ht : tryBlockquote (c :: rest) = none := by
        simp [tryBlockquote, hc]
      cases flag with
      | true =>
        simp only [blockquoteGo, ht]
        by_cases hnl : c = '\n' <;> simp [hnl, ih _ hr]
      | false =>
        simp only [blockquoteGo]
        by_cases hnl : c = '\n' <;> simp [hnl, ih _ hr]

theorem blockquotePass_id {s : List Char} (h : '>' ∉ s) : blockquotePass s = s :=
  blockquoteGo_id _ h

theorem parseOlItem_none_of_no_digit {s : List Char}
    (h : ∀ c ∈ s, c.isDigit = false) : parseOlItem s = none := by
  have hd : (s.drop (s.takeWhile jsWs).length).takeWhile Char.isDigit = [] := by
    cases hs : s.drop (s.takeWhile jsWs).length with
    | nil => rfl
    | cons c r =>
      have hc : c ∈ s := by
        have : c ∈ s.drop (s.takeWhile jsWs).length := by
          rw [hs]; exact List.mem_cons_self c r
        exact List.mem_of_mem_drop this
      exact takeWhile_nil_of_head (h c hc)
  simp [parseOlItem, hd]

theorem parseUlItem_none_of_head {c : Char} {r : List Char}
    (hw : jsWs c = false) (hb : ¬ (c = '-' ∨ c = '*' ∨ c = '+')) :
    parseUlItem (c :: r) = none := by
  simp [parseUlItem, takeWhile_nil_of_head hw, hb]

theorem listGo_false_id
    {item : List Char → Option (List Char × List Char)}
    {render : List Char → List Char} {fuel : Nat} :
    ∀ {s : List Char}, '\n' ∉ s → listGo item render fuel false s = s := by
  induction fuel with
  | zero => intro s _; rfl
  | succ fuel ih =>
    intro s h
    cases s with
    | nil => rfl
    | cons c rest =>
      have hc : c ≠ '\n' := fun he => h (he ▸ List.mem_cons_self c rest)
      have hr : '\n' ∉ rest := fun hm => h (List.mem_cons_of_mem c hm)
      simp [listGo, hc, ih hr]

theorem listGo_true_of_fail
    {item : List Char → Option (List Char × List Char)}
    {render : List Char → List Char} {fuel : Nat} {s : List Char}
    (hfail : item s = none) (h : '\n' ∉ s) :
    listGo item render fuel true s = s := by
  cases fuel with
  | zero => rfl
  | succ fuel =>
    cases s with
    | nil => rfl
    | cons c rest =>
      have hc : c ≠ '\n' := fun he => h (he ▸ List.mem_cons_self c rest)
      have hr : '\n' ∉ rest := fun hm => h (List.mem_cons_of_mem c hm)
      simp [listGo, hfail, hc, listGo_false_id hr]

theorem inlineCodeGo_id {fuel : Nat} :
    ∀ {s : List Char}, tickChar ∉ s → inlineCodeGo fuel s = s := by
  induction fuel with
  | zero => intro s _; rfl
  | succ fuel ih =>
    intro s h
    cases s with
    | nil => rfl
    | cons c rest =>
      have hc : c ≠ tickChar := fun he => h (he ▸ List.mem_cons_self c rest)
      have hr : tickChar ∉ rest := fun hm => h (List.mem_cons_of_mem c hm)
      simp [inlineCodeGo, hc, ih hr]

theorem inlineCodePass_id {s : List Char} (h : tickChar ∉ s) :
    inlineCodePass s = s :=
  inlineCodeGo_id h

theorem boldGo_id {fuel : Nat} :
    ∀ {s : List Char}, '*' ∉ s → boldGo fuel s = s := by
  induction fuel with
  | zero => intro s _; rfl
  | succ fuel ih =>
    intro s h
    cases s with
    | nil => rfl
    | cons c rest =>
      have hc : c ≠ '*' := fun he => h (he ▸ List.mem_cons_self c rest)
      have hr : '*' ∉ rest := fun hm => h (List.mem_cons_of_mem c hm)
      simp [boldGo, hc, ih hr]

theorem boldPass_id {s : List Char} (h : '*' ∉ s) : boldPass s = s :=
  boldGo_id h

theorem italicGo_id {fuel : Nat} :
    ∀ {s : List Char}, (∀ c ∈ s, emDelim c = false) → italicGo fuel s = s := by
  induction fuel with
  | zero => intro s _; rfl
  | succ fuel ih =>
    intro s h
    cases s with
    | nil => rfl
    | cons c rest =>
      have hc : emDelim c = false := h c (List.mem_cons_self c rest)
      have hr : ∀ x ∈ rest, emDelim x = false :=
        fun x hm => h x (List.mem_cons_of_mem c hm)
      simp [italicGo, hc, ih hr]

theorem italicPass_id {s : List Char} (h : ∀ c ∈ s, emDelim c = false) :
    italicPass s = s :=
  italicGo_id h

theorem linksGo_id {fuel : Nat} :
    ∀ {s : List Char}, '[' ∉ s → linksGo fuel s = s := by
  induction fuel with
  | zero => intro s _; rfl
  | succ fuel ih =>
    intro s h
    cases s with
    | nil => rfl
    | cons c rest =>
      have hc : c ≠ '[' := fun he => h (he ▸ List.mem_cons_self c rest)
      have hr : '[' ∉ rest := fun hm => h (List.mem_cons_of_mem c hm)
      simp [linksGo, hc, ih hr]

theorem linksPass_id {s : List Char} (h : '[' ∉ s) : linksPass s = s :=
  linksGo_id h

theorem splitBlocksGo_no_newline {fuel : Nat} :
    ∀ {s acc : List Char}, '\n' ∉ s →
    splitBlocksGo fuel s acc = [acc.reverse ++ s] := by
  induction fuel with
  | zero => intro s acc _; rfl
  | succ fuel ih =>
    intro s acc h
    cases s with
    | nil => simp [splitBlocksGo]
    | cons c rest =>
      have hc : c ≠ '\n' := fun he => h (he ▸ List.mem_cons_self c rest)
      have hr : '\n' ∉ rest := fun hm => h (List.mem_cons_of_mem c hm)
      simp [splitBlocksGo, hc, ih hr]

theorem paragraphPass_single {s : List Char} (h : '\n' ∉ s) :
    paragraphPass s =
      (if (jsTrim s).length = 0 then []
       else if structuralStart (jsTrim s) then jsTrim s
       else ("<p>".data) ++ jsTrim s ++ ("</p>".data)) := by
  simp [paragraphPass, splitBlocksGo_no_newline h]

theorem jsTrimStart_cons {c : Char} {r : List Char} (h : jsWs c = false) :
    jsTrimStart (c :: r) = c :: r := by
  simp [jsTrimStart, List.dropWhile_cons, h]

theorem jsTrimEnd_append {c : Char} {r : List Char} (h : jsWs c = false) :
    jsTrimEnd (r ++ [c]) = r ++ [c] := by
  simp [jsTrimEnd, List.dropWhile_cons, h]

theorem restoreBlocksGo_nil {t : List Char} {idx : Nat} :
    restoreBlocksGo t [] idx = t := rfl

/-- C1: for every input string, `renderMarkdown` extracts the fenced
code blocks before any other transformation and restores them only at
the end (first conjunct: the pipeline literally factors through the
extraction and the restoration), and every stored block is the raw
content, end-trimmed, escaped exactly by `escapeHtml` and wrapped in a
`pre`/`code` element; the escaped content never contains a raw `<`,
`>` or `"` (nor `'`), so markup-like characters from a fenced block
occur in the output only in HTML-escaped form inside the code element. -/
theorem renderMarkdown_fenced_code_escaped (md : List Char) :
    renderMarkdown md =
      restoreBlocksGo
        (paragraphPass (linksPass (italicPass (boldPass (inlineCodePass
          (ulPass (olPass (blockquotePass (headingPass
            (escapeHtml (extractFences md).1))))))))))
        (extractFences md).2 0 ∧
    ∀ b ∈ (extractFences md).2, ∃ code,
      b = ("<pre><code>".data) ++ escapeHtml (jsTrimEnd code) ++
          ("</code></pre>".data) ∧
      ∀ c ∈ escapeHtml (jsTrimEnd code), c ≠ '<' ∧ c ≠ '>' ∧ c ≠ '"' := by
  constructor
  · rfl
  · intro b hb
    obtain ⟨code, hcode⟩ :=
      extractFencesGo_blocks (fun b hb => absurd hb (List.not_mem_nil b)) b hb
    refine ⟨code, hcode, ?_⟩
    intro c hc
    have h := escapeHtml_no_markup (jsTrimEnd code) c hc
    exact ⟨h.1, h.2.1, h.2.2.1⟩

/-- Closed instance of C1 at the input containing the fenced block
`<a>`: the stored block is the escaped wrapped form, discharging the
membership hypothesis concretely. -/
theorem renderMarkdown_fenced_code_escaped_witness :
    ∃ code,
      ("<pre><code>&lt;a&gt;</code></pre>".data) =
        ("<pre><code>".data) ++ escapeHtml (jsTrimEnd code) ++
        ("</code></pre>".data) ∧
      ∀ c ∈ escapeHtml (jsTrimEnd code), c ≠ '<' ∧ c ≠ '>' ∧ c ≠ '"' :=
  (renderMarkdown_fenced_code_escaped ("```<a>```".data)).2
    (("<pre><code>&lt;a&gt;</code></pre>").data) (by decide)

/-- C6 counterexample: the claim asserts that an inline span containing
`<` yields `<code>&lt;</code>` (escaped exactly once), but the code
escapes the span content a second time on top of the already-escaped
text: on the input containing the single inline span with content `<`
the output is `<p><code>&amp;lt;</code></p>`, and the once-escaped form
`<code>&lt;</code>` does not occur in it. -/
theorem renderMarkdown_inline_code_double_escape_cex :
    renderMarkdown ("`<`".data) = ("<p><code>&amp;lt;</code></p>".data) ∧
    containsSub ("<code>&lt;</code>".data) (renderMarkdown ("`<`".data)) =
      false := by
  constructor
  · rfl
  · rfl

/-- C6 amended: every inline code span is wrapped in a `code` element
with its content passed through `escapeHtml` a second time (the span
content was already escaped by the global escaping pass), so content
without escapable characters appears verbatim while escapable
characters are double-escaped.  Concretely, the scenario input yields
the bold element and the code element inside one paragraph, and the
span content `<` renders as `&amp;lt;` (`escapeHtml` applied twice). -/
theorem renderMarkdown_inline_code_amended :
    renderMarkdown ("**bold** and `code`".data) =
      ("<p><strong>bold</strong> and <code>code</code></p>".data) ∧
    renderMarkdown ("`<`".data) = ("<p><code>&amp;lt;</code></p>".data) ∧
    escapeHtml (escapeHtml ['<']) = ("&amp;lt;".data) := by
  refine ⟨?_, ?_, ?_⟩
  · rfl
  · rfl
  · rfl

/-- Characters from which the nested-emphasis claim's spans are built:
letters and spaces, which are inert in every pass of the renderer. -/
def plainChar (c : Char) : Bool := c.isAlpha || c = ' '

theorem plainChar_ne {c x : Char} (h : plainChar c = true)
    (hx : plainChar x = false) : c ≠ x :=
  fun he => by rw [he, hx] at h; cases h

theorem takeWhile_append_stop {p : Char → Bool} :
    ∀ {B : List Char} {d : Char} {v : List Char},
    (∀ c ∈ B, p c = true) → p d = false →
    (B ++ d :: v).takeWhile p = B := by
  intro B
  induction B with
  | nil => intro d v _ hd; simp [List.takeWhile, hd]
  | cons c B' ih =>
    intro d v hB hd
    have hc : p c = true := hB c (List.mem_cons_self c B')
    simp [List.takeWhile_cons, hc,
      ih (fun x hx => hB x (List.mem_cons_of_mem c hx)) hd]

theorem boldGo_nil (fuel : Nat) : boldGo fuel [] = [] := by
  cases fuel <;> rfl

theorem isPrefixOf_star2_false {x : Char} {r : List Char} (hx : x ≠ '*') :
    (['*', '*'] : List Char).isPrefixOf ('*' :: x :: r) = false := by
  simp [List.isPrefixOf]
  intro h
  exact absurd h.symm hx

theorem findSplit_star2_end {C : List Char} (hC : '*' ∉ C) :
    findSplit ['*', '*'] (C ++ ['*', '*']) = some (C, []) := by
  rw [findSplit_append_of_not_mem hC]
  rw [show findSplit ['*', '*'] (['*', '*'] : List Char) = some ([], []) from rfl]
  simp

theorem findSplit_star2_mid {c0 : Char} {C' : List Char}
    (hC : '*' ∉ c0 :: C') :
    findSplit ['*', '*'] ('*' :: ((c0 :: C') ++ ['*', '*'])) =
      some ('*' :: (c0 :: C'), []) := by
  have hc0 : c0 ≠ '*' := fun he => hC (he ▸ List.mem_cons_self c0 C')
  simp only [List.cons_append]
  rw [findSplit_cons_neg (isPrefixOf_star2_false hc0)]
  have he := findSplit_star2_end hC
  simp only [List.cons_append] at he
  rw [he]
  rfl

/-- The non-greedy bold match on the nested emphasis shape: with
star-free nonempty `A`, `B`, `C` free of newlines, the whole
`**A*B*C**` span is matched and wrapped in a `strong` element. -/
theorem boldGo_nested {fuel : Nat} {A B C : List Char}
    (hA : A ≠ []) (hB : B ≠ []) (hC : C ≠ [])
    (hsA : '*' ∉ A) (hsB : '*' ∉ B) (hsC : '*' ∉ C)
    (hnA : '\n' ∉ A) (hnB : '\n' ∉ B) (hnC : '\n' ∉ C) :
    boldGo (fuel + 1)
        ('*' :: '*' :: (A ++ '*' :: (B ++ '*' :: (C ++ ['*', '*'])))) =
      ("<strong>".data) ++ (A ++ '*' :: (B ++ '*' :: C)) ++
      ("</strong>".data) := by
  obtain ⟨a, A', rfl⟩ := List.exists_cons_of_ne_nil hA
  obtain ⟨b0, B', rfl⟩ := List.exists_cons_of_ne_nil hB
  obtain ⟨c0, C', rfl⟩ := List.exists_cons_of_ne_nil hC
  have hsA' : '*' ∉ A' := fun hm => hsA (List.mem_cons_of_mem a hm)
  have hb0 : b0 ≠ '*' := fun he => hsB (he ▸ List.mem_cons_self b0 B')
  have hfs :
      findSplit ['*', '*']
        (A' ++ '*' :: ((b0 :: B') ++ '*' :: ((c0 :: C') ++ ['*', '*']))) =
      some (A' ++ '*' :: ((b0 :: B') ++ '*' :: (c0 :: C')), []) := by
    rw [findSplit_append_of_not_mem hsA']
    rw [show ((b0 :: B') ++ '*' :: ((c0 :: C') ++ ['*', '*']) : List Char) =
        b0 :: (B' ++ '*' :: ((c0 :: C') ++ ['*', '*'])) from rfl]
    rw [findSplit_cons_neg (isPrefixOf_star2_false hb0)]
    rw [show (b0 :: (B' ++ '*' :: ((c0 :: C') ++ ['*', '*'])) : List Char) =
        (b0 :: B') ++ '*' :: ((c0 :: C') ++ ['*', '*']) from rfl]
    rw [findSplit_append_of_not_mem hsB]
    rw [findSplit_star2_mid hsC]
    rfl
  have hnlc : ¬ ('\n' ∈
      a :: (A' ++ '*' :: ((b0 :: B') ++ '*' :: (c0 :: C')))) := by
    intro hmem
    rcases List.mem_cons.mp hmem with h | hmem2
    · exact hnA (h ▸ List.mem_cons_self a A')
    rcases List.mem_append.mp hmem2 with h | hmem3
    · exact hnA (List.mem_cons_of_mem a h)
    rcases List.mem_cons.mp hmem3 with h | hmem4
    · cases h
    rcases List.mem_append.mp hmem4 with h | hmem5
    · exact hnB h
    rcases List.mem_cons.mp hmem5 with h | h
    · cases h
    · exact hnC h
  show boldGo (fuel + 1)
      ('*' :: '*' ::
        (a :: (A' ++ '*' :: ((b0 :: B') ++ '*' :: ((c0 :: C') ++ ['*', '*']))))) = _
  simp only [boldGo, hfs, if_pos rfl, if_neg hnlc, boldGo_nil]
  simp [List.cons_append, List.append_assoc]

theorem italicGo_skip :
    ∀ {u : List Char}, (∀ c ∈ u, emDelim c = false) →
    ∀ (fuel : Nat) (v : List Char),
    italicGo (u.length + fuel) (u ++ v) = u ++ italicGo fuel v := by
  intro u
  induction u with
  | nil => intro _ fuel v; simp
  | cons c u' ih =>
    intro hu fuel v
    have hc : emDelim c = false := hu c (List.mem_cons_self c u')
    have hu' : ∀ x ∈ u', emDelim x = false :=
      fun x hx => hu x (List.mem_cons_of_mem c hx)
    have hlen : (c :: u').length + fuel = (u'.length + fuel) + 1 := by
      simp [List.length_cons]; omega
    rw [hlen, List.cons_append]
    simp only [italicGo, hc, Bool.false_eq_true, if_false]
    rw [ih hu' fuel v]
    rfl

theorem italicGo_match {fuel : Nat} {B v : List Char} {b0 : Char} {B' : List Char}
    (hBe : B = b0 :: B') (hBd : ∀ c ∈ B, emDelim c = false) :
    italicGo (fuel + 1) ('*' :: (B ++ '*' :: v)) =
      ("<em>".data) ++ B ++ ("</em>".data) ++ italicGo fuel v := by
  subst hBe
  have hstar : emDelim '*' = true := by decide
  have htw : (((b0 :: B') ++ '*' :: v).takeWhile (fun x => !(emDelim x))) =
      b0 :: B' :=
    takeWhile_append_stop
      (fun c hc => by simp [hBd c hc]) (by decide)
  have hdrop : ((b0 :: B') ++ '*' :: v).drop (b0 :: B').length = '*' :: v :=
    List.drop_left _ _
  simp only [italicGo, hstar, if_pos rfl, htw, hdrop]
  simp [List.append_assoc]

theorem parseOlItem_none_of_head {c : Char} {r : List Char}
    (hw : jsWs c = false) (hd : c.isDigit = false) :
    parseOlItem (c :: r) = none := by
  simp [parseOlItem, takeWhile_nil_of_head hw, takeWhile_nil_of_head hd]

theorem parseUlItem_none_two {c c2 : Char} {r : List Char}
    (h1 : jsWs c = false) (h2 : jsWs c2 = false) :
    parseUlItem (c :: c2 :: r) = none := by
  by_cases hb : c = '-' ∨ c = '*' ∨ c = '+' <;>
    simp [parseUlItem, takeWhile_nil_of_head h1, takeWhile_nil_of_head h2, hb]

theorem emDelim_false_of_plain {c : Char} (h : plainChar c = true) :
    emDelim c = false := by
  have h1 := plainChar_ne h (by decide : plainChar '*' = false)
  have h2 := plainChar_ne h (by decide : plainChar '_' = false)
  simp [emDelim, h1, h2]

theorem mem_nested_shape {x : Char} {A B C : List Char}
    (h : x ∈ '*' :: '*' :: (A ++ '*' :: (B ++ '*' :: (C ++ ['*', '*'])))) :
    x = '*' ∨ x ∈ A ∨ x ∈ B ∨ x ∈ C := by
  rcases List.mem_cons.mp h with h | h
  · exact Or.inl h
  rcases List.mem_cons.mp h with h | h
  · exact Or.inl h
  rcases List.mem_append.mp h with h | h
  · exact Or.inr (Or.inl h)
  rcases List.mem_cons.mp h with h | h
  · exact Or.inl h
  rcases List.mem_append.mp h with h | h
  · exact Or.inr (Or.inr (Or.inl h))
  rcases List.mem_cons.mp h with h | h
  · exact Or.inl h
  rcases List.mem_append.mp h with h | h
  · exact Or.inr (Or.inr (Or.inr h))
  rcases List.mem_cons.mp h with h | h
  · exact Or.inl h
  rcases List.mem_cons.mp h with h | h
  · exact Or.inl h
  cases h

theorem nested_shape_not_mem {A B C : List Char}
    (hpA : ∀ c ∈ A, plainChar c = true) (hpB : ∀ c ∈ B, plainChar c = true)
    (hpC : ∀ c ∈ C, plainChar c = true) {x : Char}
    (hxs : x ≠ '*') (hxp : plainChar x = false) :
    x ∉ '*' :: '*' :: (A ++ '*' :: (B ++ '*' :: (C ++ ['*', '*']))) := by
  intro h
  rcases mem_nested_shape h with he | hA | hB | hC
  · exact hxs he
  · rw [hpA x hA] at hxp; cases hxp
  · rw [hpB x hB] at hxp; cases hxp
  · rw [hpC x hC] at hxp; cases hxp

/-- C7: for every well-formed nested emphasis span `**A*B*C**` built
from nonempty spans of letters and spaces, `renderMarkdown` applies
bold before italic: the output wraps the full span in one `strong`
element with the italic part nested inside it as an `em` element,
inside a paragraph — the double delimiter is never split into two
italic spans. -/
theorem renderMarkdown_bold_before_italic {A B C : List Char}
    (hA : A ≠ []) (hB : B ≠ []) (hC : C ≠ [])
    (hpA : ∀ c ∈ A, plainChar c = true) (hpB : ∀ c ∈ B, plainChar c = true)
    (hpC : ∀ c ∈ C, plainChar c = true) :
    renderMarkdown
        ('*' :: '*' :: (A ++ '*' :: (B ++ '*' :: (C ++ ['*', '*'])))) =
      ("<p><strong>".data) ++ A ++ ("<em>".data) ++ B ++ ("</em>".data) ++
      C ++ ("</strong></p>".data) := by
  have hplain5 : ∀ c : Char, plainChar c = true →
      c ≠ '&' ∧ c ≠ '<' ∧ c ≠ '>' ∧ c ≠ '"' ∧ c ≠ '\'' := fun c h =>
    ⟨plainChar_ne h (by decide), plainChar_ne h (by decide),
     plainChar_ne h (by decide), plainChar_ne h (by decide),
     plainChar_ne h (by decide)⟩
  have hsA : '*' ∉ A := fun h => absurd (hpA '*' h) (by decide)
  have hsB : '*' ∉ B := fun h => absurd (hpB '*' h) (by decide)
  have hsC : '*' ∉ C := fun h => absurd (hpC '*' h) (by decide)
  have hnA : '\n' ∉ A := fun h => absurd (hpA '\n' h) (by decide)
  have hnB : '\n' ∉ B := fun h => absurd (hpB '\n' h) (by decide)
  have hnC : '\n' ∉ C := fun h => absurd (hpC '\n' h) (by decide)
  have htick := nested_shape_not_mem hpA hpB hpC
    (by decide : tickChar ≠ '*') (by decide)
  have hext := extractFences_id htick
  have hesc : escapeHtml
      ('*' :: '*' :: (A ++ '*' :: (B ++ '*' :: (C ++ ['*', '*'])))) =
      '*' :: '*' :: (A ++ '*' :: (B ++ '*' :: (C ++ ['*', '*']))) := by
    apply escapeHtml_id
    intro c hc
    rcases mem_nested_shape hc with he | h | h | h
    · subst he; exact (by decide)
    · exact hplain5 c (hpA c h)
    · exact hplain5 c (hpB c h)
    · exact hplain5 c (hpC c h)
  have hhash := headingPass_id
    (nested_shape_not_mem hpA hpB hpC (by decide : '#' ≠ '*') (by decide))
  have hbq := blockquotePass_id
    (nested_shape_not_mem hpA hpB hpC (by decide : '>' ≠ '*') (by decide))
  have hnlmd := nested_shape_not_mem hpA hpB hpC
    (by decide : '\n' ≠ '*') (by decide)
  have hol : olPass ('*' :: '*' :: (A ++ '*' :: (B ++ '*' :: (C ++ ['*', '*'])))) =
      '*' :: '*' :: (A ++ '*' :: (B ++ '*' :: (C ++ ['*', '*']))) := by
    show listGo parseOlItem olRender _ true _ = _
    exact listGo_true_of_fail (parseOlItem_none_of_head (by decide) (by decide))
      hnlmd
  have hul : ulPass ('*' :: '*' :: (A ++ '*' :: (B ++ '*' :: (C ++ ['*', '*'])))) =
      '*' :: '*' :: (A ++ '*' :: (B ++ '*' :: (C ++ ['*', '*']))) := by
    show listGo parseUlItem ulRender _ true _ = _
    exact listGo_true_of_fail (parseUlItem_none_two (by decide) (by decide))
      hnlmd
  have hic := inlineCodePass_id htick
  have hbold : boldPass
      ('*' :: '*' :: (A ++ '*' :: (B ++ '*' :: (C ++ ['*', '*'])))) =
      ("<strong>".data) ++ (A ++ '*' :: (B ++ '*' :: C)) ++
      ("</strong>".data) := by
    show boldGo
      ('*' :: '*' :: (A ++ '*' :: (B ++ '*' :: (C ++ ['*', '*'])))).length
      _ = _
    rw [show ('*' :: '*' ::
        (A ++ '*' :: (B ++ '*' :: (C ++ ['*', '*'])))).length =
      ('*' :: (A ++ '*' :: (B ++ '*' :: (C ++ ['*', '*'])))).length + 1
      from rfl]
    exact boldGo_nested hA hB hC hsA hsB hsC hnA hnB hnC
  have hTsplit : ("<strong>".data) ++ (A ++ '*' :: (B ++ '*' :: C)) ++
      ("</strong>".data) =
      (("<strong>".data) ++ A) ++
        ('*' :: (B ++ '*' :: (C ++ ("</strong>".data)))) := by
    simp [List.append_assoc]
  have hu : ∀ c ∈ ("<strong>".data) ++ A, emDelim c = false := by
    intro c hc
    rcases List.mem_append.mp hc with h | h
    · exact (by decide :
        ∀ x ∈ ("<strong>".data : List Char), emDelim x = false) c h
    · exact emDelim_false_of_plain (hpA c h)
  have hv : ∀ c ∈ C ++ ("</strong>".data), emDelim c = false := by
    intro c hc
    rcases List.mem_append.mp hc with h | h
    · exact emDelim_false_of_plain (hpC c h)
    · exact (by decide :
        ∀ x ∈ ("</strong>".data : List Char), emDelim x = false) c h
  have hBd : ∀ c ∈ B, emDelim c = false :=
    fun c h => emDelim_false_of_plain (hpB c h)
  obtain ⟨b0, B', hBe⟩ := List.exists_cons_of_ne_nil hB
  have hital : italicPass (("<strong>".data) ++ (A ++ '*' :: (B ++ '*' :: C))
      ++ ("</strong>".data)) =
      (("<strong>".data) ++ A) ++
        (("<em>".data) ++ B ++ ("</em>".data) ++ (C ++ ("</strong>".data))) := by
    show italicGo _ _ = _
    rw [hTsplit, List.length_append]
    rw [italicGo_skip hu _ _]
    rw [show ('*' :: (B ++ '*' :: (C ++ ("</strong>".data)))).length =
      (B ++ '*' :: (C ++ ("</strong>".data))).length + 1 from rfl]
    rw [italicGo_match hBe hBd]
    rw [italicGo_id hv]
  have hT2mem : ∀ x ∈ (("<strong>".data) ++ A) ++
      (("<em>".data) ++ B ++ ("</em>".data) ++ (C ++ ("</strong>".data))),
      (x ∈ ("<strong>".data : List Char) ∨ x ∈ ("<em>".data : List Char) ∨
       x ∈ ("</em>".data : List Char) ∨ x ∈ ("</strong>".data : List Char)) ∨
      plainChar x = true := by
    intro x hx
    rcases List.mem_append.mp hx with h | h
    · rcases List.mem_append.mp h with h | h
      · exact Or.inl (Or.inl h)
      · exact Or.inr (hpA x h)
    · rcases List.mem_append.mp h with h | h
      · rcases List.mem_append.mp h with h | h
        · rcases List.mem_append.mp h with h | h
          · exact Or.inl (Or.inr (Or.inl h))
          · exact Or.inr (hpB x h)
        · exact Or.inl (Or.inr (Or.inr (Or.inl h)))
      · rcases List.mem_append.mp h with h | h
        · exact Or.inr (hpC x h)
        · exact Or.inl (Or.inr (Or.inr (Or.inr h)))
  have hnotmemT2 : ∀ {x : Char}, plainChar x = false →
      x ∉ ("<strong>".data : List Char) → x ∉ ("<em>".data : List Char) →
      x ∉ ("</em>".data : List Char) → x ∉ ("</strong>".data : List Char) →
      x ∉ (("<strong>".data) ++ A) ++
        (("<em>".data) ++ B ++ ("</em>".data) ++ (C ++ ("</strong>".data))) := by
    intro x hxp h1 h2 h3 h4 hx
    rcases hT2mem x hx with (h | h | h | h) | h
    · exact h1 h
    · exact h2 h
    · exact h3 h
    · exact h4 h
    · rw [h] at hxp; cases hxp
  have hlb : '[' ∉ (("<strong>".data) ++ A) ++
      (("<em>".data) ++ B ++ ("</em>".data) ++ (C ++ ("</strong>".data))) :=
    hnotmemT2 (by decide) (by decide) (by decide) (by decide) (by decide)
  have hnlT2 : '\n' ∉ (("<strong>".data) ++ A) ++
      (("<em>".data) ++ B ++ ("</em>".data) ++ (C ++ ("</strong>".data))) :=
    hnotmemT2 (by decide) (by decide) (by decide) (by decide) (by decide)
  have hlk := linksPass_id hlb
  have hT2e : (("<strong>".data) ++ A) ++
      (("<em>".data) ++ B ++ ("</em>".data) ++ (C ++ ("</strong>".data))) =
      ((("<strong>".data) ++ A) ++
        (("<em>".data) ++ B ++ ("</em>".data) ++ (C ++ ("</strong".data))))
        ++ ['>'] := by
    simp only [List.append_assoc, List.cons_append, List.nil_append]
  have h1 : jsTrimStart ((("<strong>".data) ++ A) ++
      (("<em>".data) ++ B ++ ("</em>".data) ++ (C ++ ("</strong>".data)))) =
      (("<strong>".data) ++ A) ++
        (("<em>".data) ++ B ++ ("</em>".data) ++ (C ++ ("</strong>".data))) := by
    rw [show (("<strong>".data) ++ A) ++
        (("<em>".data) ++ B ++ ("</em>".data) ++ (C ++ ("</strong>".data))) =
        '<' :: (("strong>".data ++ A) ++
        (("<em>".data) ++ B ++ ("</em>".data) ++ (C ++ ("</strong>".data))))
      from rfl]
    exact jsTrimStart_cons (by decide)
  have h2 : jsTrimEnd ((("<strong>".data) ++ A) ++
      (("<em>".data) ++ B ++ ("</em>".data) ++ (C ++ ("</strong>".data)))) =
      (("<strong>".data) ++ A) ++
        (("<em>".data) ++ B ++ ("</em>".data) ++ (C ++ ("</strong>".data))) := by
    rw [hT2e]
    exact jsTrimEnd_append (by decide)
  have htrim : jsTrim ((("<strong>".data) ++ A) ++
      (("<em>".data) ++ B ++ ("</em>".data) ++ (C ++ ("</strong>".data)))) =
      (("<strong>".data) ++ A) ++
        (("<em>".data) ++ B ++ ("</em>".data) ++ (C ++ ("</strong>".data))) := by
    show jsTrimEnd (jsTrimStart _) = _
    rw [h1, h2]
  have hlen0 : ¬ (((("<strong>".data) ++ A) ++
      (("<em>".data) ++ B ++ ("</em>".data) ++
        (C ++ ("</strong>".data)))).length = 0) :=
    fun h => Nat.succ_ne_zero _ h
  have hstruct : structuralStart ((("<strong>".data) ++ A) ++
      (("<em>".data) ++ B ++ ("</em>".data) ++ (C ++ ("</strong>".data)))) =
      false := rfl
  have hpara : paragraphPass ((("<strong>".data) ++ A) ++
      (("<em>".data) ++ B ++ ("</em>".data) ++ (C ++ ("</strong>".data)))) =
      ("<p>".data) ++ ((("<strong>".data) ++ A) ++
        (("<em>".data) ++ B ++ ("</em>".data) ++ (C ++ ("</strong>".data))))
      ++ ("</p>".data) := by
    rw [paragraphPass_single hnlT2, htrim, if_neg hlen0,
      if_neg (by rw [hstruct]; exact Bool.false_ne_true)]
  simp only [renderMarkdown, hext]
  rw [hesc, hhash, hbq, hol, hul, hic, hbold, hital, hlk, hpara,
    restoreBlocksGo_nil]
  simp only [List.append_assoc, List.cons_append, List.nil_append]

/-- Closed instance of C7 on the spec's example `**a *b* c**`. -/
theorem renderMarkdown_bold_before_italic_witness :
    renderMarkdown ("**a *b* c**".data) =
      ("<p><strong>a <em>b</em> c</strong></p>".data) :=
  @renderMarkdown_bold_before_italic ("a ".data) ("b".data) (" c".data)
    (by decide) (by decide) (by decide) (by decide) (by decide) (by decide)

/-- One ordered-list source line `<digits>. <text>`. -/
def olLine (p : List Char × List Char) : List Char :=
  p.1 ++ '.' :: ' ' :: p.2

/-- Join lines with single newlines (the shape of a run of consecutive
lines in the input text). -/
def joinNl : List (List Char) → List Char
  | [] => []
  | [l] => l
  | l :: ls => l ++ '\n' :: joinNl ls

theorem joinNl_cons_of_ne_nil {l : List Char} {ls : List (List Char)}
    (h : ls ≠ []) : joinNl (l :: ls) = l ++ '\n' :: joinNl ls := by
  cases ls with
  | nil => exact absurd rfl h
  | cons q rest => rfl

theorem ne_of_isDigit {c x : Char} (h : c.isDigit = true)
    (hx : x.isDigit = false) : c ≠ x :=
  fun he => by rw [he, hx] at h; cases h

theorem ne_of_isAlpha {c x : Char} (h : c.isAlpha = true)
    (hx : x.isAlpha = false) : c ≠ x :=
  fun he => by rw [he, hx] at h; cases h

theorem jsWs_false_of_digit {c : Char} (h : c.isDigit = true) :
    jsWs c = false := by
  simp [jsWs, ne_of_isDigit h (by decide : (' ' : Char).isDigit = false),
    ne_of_isDigit h (by decide : ('\t' : Char).isDigit = false),
    ne_of_isDigit h (by decide : ('\n' : Char).isDigit = false),
    ne_of_isDigit h (by decide : ('\r' : Char).isDigit = false),
    ne_of_isDigit h (by decide : ('\x0b' : Char).isDigit = false),
    ne_of_isDigit h (by decide : ('\x0c' : Char).isDigit = false),
    ne_of_isDigit h (by decide : (Char.ofNat 160).isDigit = false),
    ne_of_isDigit h (by decide : ('﻿' : Char).isDigit = false)]

theorem jsWs_false_of_alpha {c : Char} (h : c.isAlpha = true) :
    jsWs c = false := by
  simp [jsWs, ne_of_isAlpha h (by decide : (' ' : Char).isAlpha = false),
    ne_of_isAlpha h (by decide : ('\t' : Char).isAlpha = false),
    ne_of_isAlpha h (by decide : ('\n' : Char).isAlpha = false),
    ne_of_isAlpha h (by decide : ('\r' : Char).isAlpha = false),
    ne_of_isAlpha h (by decide : ('\x0b' : Char).isAlpha = false),
    ne_of_isAlpha h (by decide : ('\x0c' : Char).isAlpha = false),
    ne_of_isAlpha h (by decide : (Char.ofNat 160).isAlpha = false),
    ne_of_isAlpha h (by decide : ('﻿' : Char).isAlpha = false)]

theorem takeWhile_all {p : Char → Bool} :
    ∀ {l : List Char}, (∀ c ∈ l, p c = true) → l.takeWhile p = l := by
  intro l
  induction l with
  | nil => intro _; rfl
  | cons c r ih =>
    intro h
    simp [List.takeWhile_cons, h c (List.mem_cons_self c r),
      ih (fun x hx => h x (List.mem_cons_of_mem c hx))]

theorem jsSplitNl_no_nl : ∀ {l : List Char}, '\n' ∉ l →
    jsSplitNl l = [l] := by
  intro l
  induction l with
  | nil => intro _; rfl
  | cons c r ih =>
    intro h
    have hc : c ≠ '\n' := fun he => h (he ▸ List.mem_cons_self c r)
    have hr : '\n' ∉ r := fun hm => h (List.mem_cons_of_mem c hm)
    simp [jsSplitNl, hc, ih hr]

theorem jsSplitNl_append : ∀ {l : List Char} {J : List Char}, '\n' ∉ l →
    jsSplitNl (l ++ '\n' :: J) = l :: jsSplitNl J := by
  intro l
  induction l with
  | nil => intro J _; simp [jsSplitNl]
  | cons c r ih =>
    intro J h
    have hc : c ≠ '\n' := fun he => h (he ▸ List.mem_cons_self c r)
    have hr : '\n' ∉ r := fun hm => h (List.mem_cons_of_mem c hm)
    simp [jsSplitNl, hc, ih hr]

theorem mem_joinNl : ∀ {ls : List (List Char)} {x : Char},
    x ∈ joinNl ls → x = '\n' ∨ ∃ l ∈ ls, x ∈ l := by
  intro ls
  induction ls with
  | nil => intro x h; cases h
  | cons l rest ih =>
    intro x h
    cases rest with
    | nil =>
      exact Or.inr ⟨l, List.mem_cons_self l [], h⟩
    | cons q rest' =>
      rw [joinNl_cons_of_ne_nil (by simp)] at h
      rcases List.mem_append.mp h with h | h
      · exact Or.inr ⟨l, List.mem_cons_self l _, h⟩
      · rcases List.mem_cons.mp h with h | h
        · exact Or.inl h
        · rcases ih h with h | ⟨l', hl', hx⟩
          · exact Or.inl h
          · exact Or.inr ⟨l', List.mem_cons_of_mem l hl', hx⟩

theorem mem_olLine {p : List Char × List Char} {x : Char}
    (h : x ∈ olLine p) : x ∈ p.1 ∨ x = '.' ∨ x = ' ' ∨ x ∈ p.2 := by
  rcases List.mem_append.mp h with h | h
  · exact Or.inl h
  rcases List.mem_cons.mp h with h | h
  · exact Or.inr (Or.inl h)
  rcases List.mem_cons.mp h with h | h
  · exact Or.inr (Or.inr (Or.inl h))
  · exact Or.inr (Or.inr (Or.inr h))

/-- Dedicated hypotheses bundle for one ordered-list item. -/
def olItemOk (p : List Char × List Char) : Prop :=
  p.1 ≠ [] ∧ (∀ c ∈ p.1, c.isDigit = true) ∧ p.2 ≠ [] ∧
  (∀ c ∈ p.2, c.isAlpha = true)

instance (p : List Char × List Char) : Decidable (olItemOk p) := by
  unfold olItemOk
  infer_instance

theorem parseOlItem_line {d t rest : List Char}
    (hd : d ≠ []) (hdd : ∀ c ∈ d, c.isDigit = true)
    (ht : t ≠ []) (hta : ∀ c ∈ t, c.isAlpha = true) :
    parseOlItem (d ++ '.' :: ' ' :: (t ++ '\n' :: rest)) =
      some ((d ++ '.' :: ' ' :: t) ++ ['\n'], rest) := by
  obtain ⟨d0, d', rfl⟩ := List.exists_cons_of_ne_nil hd
  obtain ⟨t0, t', rfl⟩ := List.exists_cons_of_ne_nil ht
  have hd0 := hdd d0 (List.mem_cons_self d0 d')
  have ht0 := hta t0 (List.mem_cons_self t0 t')
  have hW0 : ((d0 :: d') ++ '.' :: ' ' :: ((t0 :: t') ++ '\n' :: rest)).takeWhile
      jsWs = [] := takeWhile_nil_of_head (jsWs_false_of_digit hd0)
  have hD : ((d0 :: d') ++ '.' :: ' ' :: ((t0 :: t') ++ '\n' :: rest)).takeWhile
      Char.isDigit = d0 :: d' :=
    takeWhile_append_stop hdd (by decide)
  have hdrop : ((d0 :: d') ++ '.' :: ' ' :: ((t0 :: t') ++ '\n' :: rest)).drop
      (d0 :: d').length = '.' :: ' ' :: ((t0 :: t') ++ '\n' :: rest) :=
    List.drop_left _ _
  have hW1 : (' ' :: ((t0 :: t') ++ '\n' :: rest)).takeWhile jsWs = [' '] := by
    simp [List.takeWhile_cons, List.cons_append,
      takeWhile_nil_of_head (jsWs_false_of_alpha ht0), jsWs]
  have hcontent : (((t0 :: t') ++ '\n' :: rest)).takeWhile
      (fun c => !decide (c = '\n')) = t0 :: t' :=
    takeWhile_append_stop
      (fun c hc => by
        simp [ne_of_isAlpha (hta c hc) (by decide : ('\n' : Char).isAlpha = false)])
      (by simp)
  have hcdrop : (((t0 :: t') ++ '\n' :: rest)).drop (t0 :: t').length =
      '\n' :: rest := List.drop_left _ _
  simp only [List.cons_append] at hW0 hD hdrop hW1 hcontent hcdrop
  simp [parseOlItem, hW0, hD, hW1, hcontent, List.drop_left,
    List.append_assoc]

theorem parseOlItem_last {d t : List Char}
    (hd : d ≠ []) (hdd : ∀ c ∈ d, c.isDigit = true)
    (ht : t ≠ []) (hta : ∀ c ∈ t, c.isAlpha = true) :
    parseOlItem (d ++ '.' :: ' ' :: t) =
      some (d ++ '.' :: ' ' :: t, []) := by
  obtain ⟨d0, d', rfl⟩ := List.exists_cons_of_ne_nil hd
  obtain ⟨t0, t', rfl⟩ := List.exists_cons_of_ne_nil ht
  have hd0 := hdd d0 (List.mem_cons_self d0 d')
  have ht0 := hta t0 (List.mem_cons_self t0 t')
  have hW0 : ((d0 :: d') ++ '.' :: ' ' :: (t0 :: t')).takeWhile jsWs = [] :=
    takeWhile_nil_of_head (jsWs_false_of_digit hd0)
  have hD : ((d0 :: d') ++ '.' :: ' ' :: (t0 :: t')).takeWhile
      Char.isDigit = d0 :: d' :=
    takeWhile_append_stop hdd (by decide)
  have hdrop : ((d0 :: d') ++ '.' :: ' ' :: (t0 :: t')).drop
      (d0 :: d').length = '.' :: ' ' :: (t0 :: t') := List.drop_left _ _
  have hW1 : (' ' :: (t0 :: t')).takeWhile jsWs = [' '] := by
    simp [List.takeWhile_cons,
      takeWhile_nil_of_head (jsWs_false_of_alpha ht0), jsWs]
  have hcontent : ((t0 :: t')).takeWhile (fun c => !decide (c = '\n')) =
      t0 :: t' :=
    takeWhile_all (fun c hc => by
      simp [ne_of_isAlpha (hta c hc) (by decide : ('\n' : Char).isAlpha = false)])
  have hcdrop : ((t0 :: t')).drop (t0 :: t').length = [] := List.drop_length _
  simp only [List.cons_append] at hW0 hD hdrop hW1 hcontent hcdrop
  simp [parseOlItem, hW0, hD, hW1, hcontent, List.drop_left,
    List.append_assoc]

theorem listItemsGo_ol : ∀ {items : List (List Char × List Char)},
    (∀ p ∈ items, olItemOk p) →
    ∀ {fuel : Nat}, items.length ≤ fuel →
    listItemsGo parseOlItem fuel (joinNl (items.map olLine)) =
      (joinNl (items.map olLine), []) := by
  intro items
  induction items with
  | nil =>
    intro _ fuel _
    cases fuel with
    | zero => rfl
    | succ fuel => simp [listItemsGo, joinNl, parseOlItem]
  | cons p items' ih =>
    intro hok fuel hfuel
    obtain ⟨hd, hdd, htne, hta⟩ := hok p (List.mem_cons_self p items')
    cases fuel with
    | zero => exact absurd hfuel (by simp)
    | succ fuel =>
      have hfuel' : items'.length ≤ fuel := by
        simp at hfuel; omega
      cases items' with
      | nil =>
        have hparse := parseOlItem_last hd hdd htne hta
        simp only [List.map, joinNl, listItemsGo, olLine]
        rw [hparse]
        cases fuel with
        | zero => simp [listItemsGo]
        | succ fuel => simp [listItemsGo, parseOlItem]
      | cons q items'' =>
        have hjoin : joinNl ((p :: q :: items'').map olLine) =
            olLine p ++ '\n' :: joinNl ((q :: items'').map olLine) := by
          rw [List.map_cons]
          exact joinNl_cons_of_ne_nil (by simp)
        have hshape : olLine p ++ '\n' :: joinNl ((q :: items'').map olLine) =
            p.1 ++ '.' :: ' ' :: (p.2 ++ '\n' ::
              joinNl ((q :: items'').map olLine)) := by
          simp [olLine, List.append_assoc]
        have hparse := @parseOlItem_line p.1 p.2
          (joinNl ((q :: items'').map olLine)) hd hdd htne hta
        have hih := ih (fun x hx => hok x (List.mem_cons_of_mem p hx)) hfuel'
        simp only [listItemsGo, hjoin, hshape, hparse, hih]
        simp [olLine, List.append_assoc]

theorem stripOlPrefix_line {p : List Char × List Char} (hok : olItemOk p) :
    stripOlPrefix (olLine p) = p.2 := by
  obtain ⟨hd, hdd, htne, hta⟩ := hok
  obtain ⟨d0, d', hp1⟩ := List.exists_cons_of_ne_nil hd
  obtain ⟨t0, t', hp2⟩ := List.exists_cons_of_ne_nil htne
  have hd0 : d0.isDigit = true := hdd d0 (hp1 ▸ List.mem_cons_self d0 d')
  have ht0 : t0.isAlpha = true := hta t0 (hp2 ▸ List.mem_cons_self t0 t')
  have hW0 : ((d0 :: d') ++ '.' :: ' ' :: (t0 :: t')).takeWhile jsWs = [] :=
    takeWhile_nil_of_head (jsWs_false_of_digit hd0)
  have hD : ((d0 :: d') ++ '.' :: ' ' :: (t0 :: t')).takeWhile
      Char.isDigit = d0 :: d' :=
    takeWhile_append_stop (hp1 ▸ hdd) (by decide)
  have hW1 : (' ' :: (t0 :: t')).takeWhile jsWs = [' '] := by
    simp [List.takeWhile_cons,
      takeWhile_nil_of_head (jsWs_false_of_alpha ht0), jsWs]
  simp only [olLine, hp1, hp2, List.cons_append] at *
  simp [stripOlPrefix, hW0, hD, hW1, List.drop_left]

theorem joinNl_len : ∀ {ls : List (List Char)}, (∀ l ∈ ls, l ≠ []) →
    ls.length ≤ (joinNl ls).length := by
  intro ls
  induction ls with
  | nil => intro _; simp
  | cons l rest ih =>
    intro h
    have hl : l ≠ [] := h l (List.mem_cons_self l rest)
    have hl1 : 1 ≤ l.length := List.length_pos.mpr hl
    cases rest with
    | nil => simpa using hl1
    | cons q rest' =>
      rw [joinNl_cons_of_ne_nil (by simp)]
      have := ih (fun x hx => h x (List.mem_cons_of_mem l hx))
      simp only [List.length_append, List.length_cons]
      simp only [List.length_cons] at this
      omega

theorem joinNl_olLine_snoc : ∀ {items : List (List Char × List Char)},
    items ≠ [] → (∀ p ∈ items, olItemOk p) →
    ∃ W cl, joinNl (items.map olLine) = W ++ [cl] ∧ cl.isAlpha = true := by
  intro items
  induction items with
  | nil => intro h _; exact absurd rfl h
  | cons p items' ih =>
    intro _ hok
    obtain ⟨_, _, htne, hta⟩ := hok p (List.mem_cons_self p items')
    cases items' with
    | nil =>
      refine ⟨p.1 ++ '.' :: ' ' :: p.2.dropLast, p.2.getLast htne, ?_, ?_⟩
      · show joinNl [olLine p] = _
        simp only [joinNl, olLine]
        rw [show (p.1 ++ '.' :: ' ' :: p.2.dropLast) ++ [p.2.getLast htne] =
          p.1 ++ '.' :: ' ' :: (p.2.dropLast ++ [p.2.getLast htne]) from by
            simp [List.append_assoc]]
        rw [List.dropLast_append_getLast htne]
      · exact hta _ (List.getLast_mem htne)
    | cons q items'' =>
      obtain ⟨W, cl, hW, hcl⟩ := ih (by simp)
        (fun x hx => hok x (List.mem_cons_of_mem p hx))
      refine ⟨olLine p ++ '\n' :: W, cl, ?_, hcl⟩
      rw [List.map_cons, joinNl_cons_of_ne_nil (by simp), hW]
      simp [List.append_assoc]

theorem listGo_nil {item : List Char → Option (List Char × List Char)}
    {render : List Char → List Char} {fuel : Nat} {flag : Bool} :
    listGo item render fuel flag [] = [] := by
  cases fuel <;> rfl

theorem jsSplitNl_joinNl : ∀ {ls : List (List Char)}, ls ≠ [] →
    (∀ l ∈ ls, '\n' ∉ l) → jsSplitNl (joinNl ls) = ls := by
  intro ls
  induction ls with
  | nil => intro h _; exact absurd rfl h
  | cons l rest ih =>
    intro _ h
    cases rest with
    | nil => exact jsSplitNl_no_nl (h l (List.mem_cons_self l []))
    | cons q rest' =>
      rw [joinNl_cons_of_ne_nil (by simp),
        jsSplitNl_append (h l (List.mem_cons_self l _)),
        ih (by simp) (fun x hx => h x (List.mem_cons_of_mem l hx))]

theorem nl_not_mem_olLine {p : List Char × List Char} (hok : olItemOk p) :
    '\n' ∉ olLine p := by
  obtain ⟨_, hdd, _, hta⟩ := hok
  intro h
  rcases mem_olLine h with h | h | h | h
  · exact absurd (hdd _ h) (by decide)
  · cases h
  · cases h
  · exact absurd (hta _ h) (by decide)

theorem map_strip_lines : ∀ {items : List (List Char × List Char)},
    (∀ p ∈ items, olItemOk p) →
    (items.map olLine).map
      (fun line => ("<li>".data) ++ stripOlPrefix line ++ ("</li>".data)) =
    items.map (fun p => ("<li>".data) ++ p.2 ++ ("</li>".data)) := by
  intro items
  induction items with
  | nil => intro _; rfl
  | cons p items' ih =>
    intro hok
    simp only [List.map_cons, List.cons.injEq]
    constructor
    · rw [stripOlPrefix_line (hok p (List.mem_cons_self p items'))]
    · exact ih (fun x hx => hok x (List.mem_cons_of_mem p hx))

theorem mem_joinNl_olLine {items : List (List Char × List Char)}
    (hok : ∀ p ∈ items, olItemOk p) {x : Char}
    (h : x ∈ joinNl (items.map olLine)) :
    x = '\n' ∨ x = '.' ∨ x = ' ' ∨ x.isDigit = true ∨ x.isAlpha = true := by
  rcases mem_joinNl h with h | ⟨l, hl, hx⟩
  · exact Or.inl h
  · obtain ⟨p, hp, rfl⟩ := List.mem_map.mp hl
    obtain ⟨_, hdd, _, hta⟩ := hok p hp
    rcases mem_olLine hx with h | h | h | h
    · exact Or.inr (Or.inr (Or.inr (Or.inl (hdd x h))))
    · exact Or.inr (Or.inl h)
    · exact Or.inr (Or.inr (Or.inl h))
    · exact Or.inr (Or.inr (Or.inr (Or.inr (hta x h))))

theorem not_mem_joinNl_olLine {items : List (List Char × List Char)}
    (hok : ∀ p ∈ items, olItemOk p) {x : Char}
    (h1 : x ≠ '\n') (h2 : x ≠ '.') (h3 : x ≠ ' ')
    (h4 : x.isDigit = false) (h5 : x.isAlpha = false) :
    x ∉ joinNl (items.map olLine) := by
  intro h
  rcases mem_joinNl_olLine hok h with h | h | h | h | h
  · exact h1 h
  · exact h2 h
  · exact h3 h
  · rw [h4] at h; cases h
  · rw [h5] at h; cases h

theorem parseOlItem_first {items : List (List Char × List Char)}
    {p : List Char × List Char}
    (hok : ∀ x ∈ p :: items, olItemOk x) :
    ∃ X, parseOlItem (joinNl ((p :: items).map olLine)) = some X := by
  obtain ⟨hd, hdd, htne, hta⟩ := hok p (List.mem_cons_self p items)
  cases items with
  | nil =>
    exact ⟨_, parseOlItem_last hd hdd htne hta⟩
  | cons q items' =>
    exact ⟨_, by
      rw [List.map_cons, joinNl_cons_of_ne_nil (by simp)]
      rw [show olLine p ++ '\n' :: joinNl ((q :: items').map olLine) =
        p.1 ++ '.' :: ' ' :: (p.2 ++ '\n' ::
          joinNl ((q :: items').map olLine)) from by
        simp [olLine, List.append_assoc]]
      exact parseOlItem_line hd hdd htne hta⟩

theorem jsTrim_joinNl_olLine {items : List (List Char × List Char)}
    (hne : items ≠ []) (hok : ∀ p ∈ items, olItemOk p) :
    jsTrim (joinNl (items.map olLine)) = joinNl (items.map olLine) := by
  obtain ⟨p, items', rfl⟩ := List.exists_cons_of_ne_nil hne
  obtain ⟨hd, hdd, htne, hta⟩ := hok p (List.mem_cons_self p items')
  obtain ⟨d0, d', hp1⟩ := List.exists_cons_of_ne_nil hd
  have hd0 : d0.isDigit = true := hdd d0 (hp1 ▸ List.mem_cons_self d0 d')
  have hZ : ∃ Z, joinNl ((p :: items').map olLine) =
      p.1 ++ '.' :: ' ' :: Z := by
    cases items' with
    | nil => exact ⟨p.2, rfl⟩
    | cons q items'' =>
      refine ⟨p.2 ++ '\n' :: joinNl ((q :: items'').map olLine), ?_⟩
      rw [List.map_cons, joinNl_cons_of_ne_nil (by simp)]
      simp [olLine, List.append_assoc]
  obtain ⟨Z, hZe⟩ := hZ
  have hstart : jsTrimStart (joinNl ((p :: items').map olLine)) =
      joinNl ((p :: items').map olLine) := by
    rw [hZe, hp1, List.cons_append]
    exact jsTrimStart_cons (jsWs_false_of_digit hd0)
  obtain ⟨W, cl, hW, hcl⟩ := joinNl_olLine_snoc (by simp) hok
  have hend : jsTrimEnd (joinNl ((p :: items').map olLine)) =
      joinNl ((p :: items').map olLine) := by
    rw [hW]
    exact jsTrimEnd_append (jsWs_false_of_alpha hcl)
  show jsTrimEnd (jsTrimStart _) = _
  rw [hstart, hend]

theorem olRender_joinNl {items : List (List Char × List Char)}
    (hne : items ≠ []) (hok : ∀ p ∈ items, olItemOk p) :
    olRender (joinNl (items.map olLine)) =
      ("<ol>".data) ++
      (items.map (fun p => ("<li>".data) ++ p.2 ++ ("</li>".data))).flatten ++
      ("</ol>".data) := by
  have hnl : ∀ l ∈ items.map olLine, '\n' ∉ l := by
    intro l hl
    obtain ⟨p, hp, rfl⟩ := List.mem_map.mp hl
    exact nl_not_mem_olLine (hok p hp)
  show ("<ol>".data) ++
      ((jsSplitNl (jsTrim (joinNl (items.map olLine)))).map
        (fun line => ("<li>".data) ++ stripOlPrefix line ++ ("</li>".data))).flatten
      ++ ("</ol>".data) = _
  rw [jsTrim_joinNl_olLine hne hok,
    jsSplitNl_joinNl (by simpa using hne) hnl, map_strip_lines hok]

theorem olPass_run {items : List (List Char × List Char)}
    (hne : items ≠ []) (hok : ∀ p ∈ items, olItemOk p) :
    olPass (joinNl (items.map olLine)) =
      ("<ol>".data) ++
      (items.map (fun p => ("<li>".data) ++ p.2 ++ ("</li>".data))).flatten ++
      ("</ol>".data) := by
  obtain ⟨p, items', rfl⟩ := List.exists_cons_of_ne_nil hne
  obtain ⟨X, hparse⟩ := parseOlItem_first hok
  have hlinene : ∀ l ∈ (p :: items').map olLine, l ≠ [] := by
    intro l hl
    obtain ⟨q, hq, rfl⟩ := List.mem_map.mp hl
    obtain ⟨hd, _, _, _⟩ := hok q hq
    obtain ⟨d0, d', hp1⟩ := List.exists_cons_of_ne_nil hd
    simp [olLine, hp1]
  have hlen : (p :: items').length ≤
      (joinNl ((p :: items').map olLine)).length := by
    have := joinNl_len hlinene
    simpa using this
  have hitems := listItemsGo_ol hok hlen
  have hLne : joinNl ((p :: items').map olLine) ≠ [] := by
    intro h
    have := joinNl_len hlinene
    rw [h] at this
    simp at this
  obtain ⟨c0, L', hL⟩ := List.exists_cons_of_ne_nil hLne
  show listGo parseOlItem olRender _ true _ = _
  rw [hL] at hparse hitems ⊢
  simp only [List.length_cons] at hitems
  simp only [listGo, List.length_cons, hparse, eq_self_iff_true, if_true,
    hitems, listGo_nil, List.append_nil]
  rw [← hL, olRender_joinNl hne hok]

theorem mem_olBody {items : List (List Char × List Char)}
    (hok : ∀ p ∈ items, olItemOk p) {x : Char}
    (h : x ∈ ("<ol>".data) ++
      (items.map (fun p => ("<li>".data) ++ p.2 ++ ("</li>".data))).flatten ++
      ("</ol>".data)) :
    x = '<' ∨ x = '>' ∨ x = '/' ∨ x.isAlpha = true := by
  rcases List.mem_append.mp h with h | h
  · rcases List.mem_append.mp h with h | h
    · exact (by decide : ∀ y ∈ ("<ol>".data : List Char),
        y = '<' ∨ y = '>' ∨ y = '/' ∨ y.isAlpha = true) x h
    · obtain ⟨l, hl, hx⟩ := List.mem_flatten.mp h
      obtain ⟨p, hp, rfl⟩ := List.mem_map.mp hl
      obtain ⟨_, _, _, hta⟩ := hok p hp
      rcases List.mem_append.mp hx with h | h
      · rcases List.mem_append.mp h with h | h
        · exact (by decide : ∀ y ∈ ("<li>".data : List Char),
            y = '<' ∨ y = '>' ∨ y = '/' ∨ y.isAlpha = true) x h
        · exact Or.inr (Or.inr (Or.inr (hta x h)))
      · exact (by decide : ∀ y ∈ ("</li>".data : List Char),
          y = '<' ∨ y = '>' ∨ y = '/' ∨ y.isAlpha = true) x h
  · exact (by decide : ∀ y ∈ ("</ol>".data : List Char),
      y = '<' ∨ y = '>' ∨ y = '/' ∨ y.isAlpha = true) x h

theorem not_mem_olBody {items : List (List Char × List Char)}
    (hok : ∀ p ∈ items, olItemOk p) {x : Char}
    (h1 : x ≠ '<') (h2 : x ≠ '>') (h3 : x ≠ '/') (h4 : x.isAlpha = false) :
    x ∉ ("<ol>".data) ++
      (items.map (fun p => ("<li>".data) ++ p.2 ++ ("</li>".data))).flatten ++
      ("</ol>".data) := by
  intro h
  rcases mem_olBody hok h with h | h | h | h
  · exact h1 h
  · exact h2 h
  · exact h3 h
  · rw [h4] at h; cases h

/-- C8: a maximal run of consecutive ordered-list lines
`<digits>. <text>` (the whole input being the run) renders as exactly
one ordered list whose items are the lines' texts in positional order;
the literal numbers in the source are discarded. -/
theorem renderMarkdown_ordered_list {items : List (List Char × List Char)}
    (hne : items ≠ []) (hok : ∀ p ∈ items, olItemOk p) :
    renderMarkdown (joinNl (items.map olLine)) =
      ("<ol>".data) ++
      (items.map (fun p => ("<li>".data) ++ p.2 ++ ("</li>".data))).flatten ++
      ("</ol>".data) := by
  have htick : tickChar ∉ joinNl (items.map olLine) :=
    not_mem_joinNl_olLine hok (by decide) (by decide) (by decide) (by decide)
      (by decide)
  have hext := extractFences_id htick
  have hesc : escapeHtml (joinNl (items.map olLine)) =
      joinNl (items.map olLine) := by
    apply escapeHtml_id
    intro c hc
    rcases mem_joinNl_olLine hok hc with h | h | h | h | h
    · subst h; exact (by decide)
    · subst h; exact (by decide)
    · subst h; exact (by decide)
    · exact ⟨ne_of_isDigit h (by decide), ne_of_isDigit h (by decide),
        ne_of_isDigit h (by decide), ne_of_isDigit h (by decide),
        ne_of_isDigit h (by decide)⟩
    · exact ⟨ne_of_isAlpha h (by decide), ne_of_isAlpha h (by decide),
        ne_of_isAlpha h (by decide), ne_of_isAlpha h (by decide),
        ne_of_isAlpha h (by decide)⟩
  have hhash := headingPass_id (not_mem_joinNl_olLine hok (by decide)
    (by decide) (by decide) (by decide) (by decide) (x := '#'))
  have hbq := blockquotePass_id (not_mem_joinNl_olLine hok (by decide)
    (by decide) (by decide) (by decide) (by decide) (x := '>'))
  have holp := olPass_run hne hok
  have hnlT3 : '\n' ∉ ("<ol>".data) ++
      (items.map (fun p => ("<li>".data) ++ p.2 ++ ("</li>".data))).flatten ++
      ("</ol>".data) :=
    not_mem_olBody hok (by decide) (by decide) (by decide) (by decide)
  have hul : ulPass (("<ol>".data) ++
      (items.map (fun p => ("<li>".data) ++ p.2 ++ ("</li>".data))).flatten ++
      ("</ol>".data)) =
      ("<ol>".data) ++
      (items.map (fun p => ("<li>".data) ++ p.2 ++ ("</li>".data))).flatten ++
      ("</ol>".data) := by
    show listGo parseUlItem ulRender _ true _ = _
    exact listGo_true_of_fail
      (parseUlItem_none_of_head (by decide) (by decide)) hnlT3
  have hic := inlineCodePass_id
    (not_mem_olBody hok (by decide) (by decide) (by decide) (by decide)
      (x := tickChar))
  have hbold := boldPass_id
    (not_mem_olBody hok (by decide) (by decide) (by decide) (by decide)
      (x := '*'))
  have hital : italicPass (("<ol>".data) ++
      (items.map (fun p => ("<li>".data) ++ p.2 ++ ("</li>".data))).flatten ++
      ("</ol>".data)) =
      ("<ol>".data) ++
      (items.map (fun p => ("<li>".data) ++ p.2 ++ ("</li>".data))).flatten ++
      ("</ol>".data) := by
    apply italicPass_id
    intro c hc
    rcases mem_olBody hok hc with h | h | h | h
    · subst h; decide
    · subst h; decide
    · subst h; decide
    · simp [emDelim, ne_of_isAlpha h (by decide : ('*' : Char).isAlpha = false),
        ne_of_isAlpha h (by decide : ('_' : Char).isAlpha = false)]
  have hlk := linksPass_id
    (not_mem_olBody hok (by decide) (by decide) (by decide) (by decide)
      (x := '['))
  have hT3e : ("<ol>".data) ++
      (items.map (fun p => ("<li>".data) ++ p.2 ++ ("</li>".data))).flatten ++
      ("</ol>".data) =
      (("<ol>".data) ++
        (items.map (fun p => ("<li>".data) ++ p.2 ++ ("</li>".data))).flatten ++
        ("</ol".data)) ++ ['>'] := by
    simp only [List.append_assoc, List.cons_append, List.nil_append]
  have h1 : jsTrimStart (("<ol>".data) ++
      (items.map (fun p => ("<li>".data) ++ p.2 ++ ("</li>".data))).flatten ++
      ("</ol>".data)) =
      ("<ol>".data) ++
      (items.map (fun p => ("<li>".data) ++ p.2 ++ ("</li>".data))).flatten ++
      ("</ol>".data) := by
    rw [show ("<ol>".data) ++
        (items.map (fun p => ("<li>".data) ++ p.2 ++ ("</li>".data))).flatten ++
        ("</ol>".data) =
      '<' :: (("ol>".data ++
        (items.map (fun p => ("<li>".data) ++ p.2 ++ ("</li>".data))).flatten)
        ++ ("</ol>".data)) from rfl]
    exact jsTrimStart_cons (by decide)
  have h2 : jsTrimEnd (("<ol>".data) ++
      (items.map (fun p => ("<li>".data) ++ p.2 ++ ("</li>".data))).flatten ++
      ("</ol>".data)) =
      ("<ol>".data) ++
      (items.map (fun p => ("<li>".data) ++ p.2 ++ ("</li>".data))).flatten ++
      ("</ol>".data) := by
    rw [hT3e]
    exact jsTrimEnd_append (by decide)
  have htrim : jsTrim (("<ol>".data) ++
      (items.map (fun p => ("<li>".data) ++ p.2 ++ ("</li>".data))).flatten ++
      ("</ol>".data)) =
      ("<ol>".data) ++
      (items.map (fun p => ("<li>".data) ++ p.2 ++ ("</li>".data))).flatten ++
      ("</ol>".data) := by
    show jsTrimEnd (jsTrimStart _) = _
    rw [h1, h2]
  have hlen0 : ¬ ((("<ol>".data) ++
      (items.map (fun p => ("<li>".data) ++ p.2 ++ ("</li>".data))).flatten ++
      ("</ol>".data)).length = 0) := fun h => Nat.succ_ne_zero _ h
  have hstruct : structuralStart (("<ol>".data) ++
      (items.map (fun p => ("<li>".data) ++ p.2 ++ ("</li>".data))).flatten ++
      ("</ol>".data)) = true := rfl
  have hpara : paragraphPass (("<ol>".data) ++
      (items.map (fun p => ("<li>".data) ++ p.2 ++ ("</li>".data))).flatten ++
      ("</ol>".data)) =
      ("<ol>".data) ++
      (items.map (fun p => ("<li>".data) ++ p.2 ++ ("</li>".data))).flatten ++
      ("</ol>".data) := by
    rw [paragraphPass_single hnlT3, htrim, if_neg hlen0, if_pos hstruct]
  simp only [renderMarkdown, hext]
  rw [hesc, hhash, hbq, holp, hul, hic, hbold, hital, hlk, hpara,
    restoreBlocksGo_nil]

/-- Closed instance of C8: three list lines numbered 3, 1 and 300
render as one ordered list with the three texts in positional order. -/
theorem renderMarkdown_ordered_list_witness :
    renderMarkdown ("3. alpha\n1. beta\n300. gamma".data) =
      ("<ol><li>alpha</li><li>beta</li><li>gamma</li></ol>".data) :=
  @renderMarkdown_ordered_list
    [("3".data, "alpha".data), ("1".data, "beta".data),
     ("300".data, "gamma".data)]
    (by decide) (by decide)

/-!
Lemmas about the state machine operations.
-/

theorem lookupKey_eraseKey {α : Type} (m : List (String × α)) (k : String) :
    lookupKey (eraseKey m k) k = none := by
  induction m with
  | nil => rfl
  | cons p rest ih =>
    by_cases hp : p.1 = k
    · simpa [eraseKey, List.filter_cons, hp] using ih
    · simpa [eraseKey, List.filter_cons, hp, lookupKey, List.find?] using ih

theorem lookupKey_setKey {α : Type} (m : List (String × α)) (k : String)
    (v : α) : lookupKey (setKey m k v) k = some v := by
  induction m with
  | nil => simp [setKey, eraseKey, lookupKey, List.find?]
  | cons p rest ih =>
    by_cases hp : p.1 = k
    · simpa [setKey, eraseKey, List.filter_cons, hp] using ih
    · simpa [setKey, eraseKey, List.filter_cons, hp, lookupKey,
        List.find?] using ih

theorem lookupQ_setQ (m : QMap) (n : Nat) (v : Nat) :
    lookupQ (setQ m n v) n = some v := by
  induction m with
  | nil => simp [setQ, lookupQ, List.find?]
  | cons p rest ih =>
    by_cases hp : p.1 = n
    · simpa [setQ, List.filter_cons, hp] using ih
    · simpa [setQ, List.filter_cons, hp, lookupQ, List.find?] using ih

/-- Every branch of `detectQuestionForTab` returns either the state
unchanged or the state with only `pendingQuestion` replaced. -/
theorem detectQuestionForTab_shape (st : AppState) (tab : Option Tab)
    (ext : Option ExtractResult) :
    detectQuestionForTab st tab ext = st ∨
    ∃ v, detectQuestionForTab st tab ext = { st with pendingQuestion := v } := by
  unfold detectQuestionForTab
  cases tab with
  | none => exact Or.inr ⟨none, rfl⟩
  | some t =>
    by_cases hu : isLeetCodeQuestionUrl t.url
    · simp only [hu]
      cases ext with
      | none => simp
      | some info =>
        simp only []
        by_cases hok : info.ok = false ∨ info.questionNumber = ""
        · simp [hok]
        · simp only [hok, if_false, if_neg hok]
          by_cases hm : questionMatchesNumber st.question
              (parseDigits info.questionNumber) = true
          · simp [hm]
          · simp only [Bool.not_eq_true] at hm
            simp only [hm]
            cases hp : st.pendingQuestion with
            | none => simp
            | some p =>
              by_cases hpn : p.number = parseDigits info.questionNumber
              · simp [hpn, ← hp]
              · simp [hpn]
    · simp [hu]

/-- C10: a background detection invocation modifies only
`PendingQuestion`: for every state, tab and extraction outcome the
question state, the session, the transcript, the durable storage
entries and all remaining fields are unchanged. -/
theorem detectQuestionForTab_frame (st : AppState) (tab : Option Tab)
    (ext : Option ExtractResult) :
    (detectQuestionForTab st tab ext).question = st.question ∧
    (detectQuestionForTab st tab ext).session = st.session ∧
    (detectQuestionForTab st tab ext).messages = st.messages ∧
    (detectQuestionForTab st tab ext).storageSession = st.storageSession ∧
    (detectQuestionForTab st tab ext).storageInit = st.storageInit ∧
    (detectQuestionForTab st tab ext).username = st.username ∧
    (detectQuestionForTab st tab ext).chatInput = st.chatInput ∧
    (detectQuestionForTab st tab ext).busy = st.busy ∧
    (detectQuestionForTab st tab ext).isSending = st.isSending ∧
    (detectQuestionForTab st tab ext).status = st.status ∧
    (detectQuestionForTab st tab ext).refreshingQuestion =
      st.refreshingQuestion ∧
    (detectQuestionForTab st tab ext).lastTabUrl = st.lastTabUrl := by
  rcases detectQuestionForTab_shape st tab ext with h | ⟨v, h⟩ <;> simp [h]

/-- Closed-form description of the pending-question update performed
by a successful detection. -/
theorem detect_pending_formula (st : AppState) (t : Tab)
    (info : ExtractResult) (hu : isLeetCodeQuestionUrl t.url = true)
    (hcond : ¬ (info.ok = false ∨ info.questionNumber = "")) :
    (detectQuestionForTab st (some t) (some info)).pendingQuestion =
      (if questionMatchesNumber st.question
          (parseDigits info.questionNumber) = true then none
       else
         match st.pendingQuestion with
         | some p =>
           if p.number = parseDigits info.questionNumber then some p
           else some ⟨parseDigits info.questionNumber,
             titleOrDefault info.title info.questionNumber⟩
         | none => some ⟨parseDigits info.questionNumber,
             titleOrDefault info.title info.questionNumber⟩) := by
  by_cases hm : questionMatchesNumber st.question
      (parseDigits info.questionNumber) = true
  · simp [detectQuestionForTab, hu, hcond, hm]
  · have hmf : questionMatchesNumber st.question
        (parseDigits info.questionNumber) = false := by simpa using hm
    cases hp : st.pendingQuestion with
    | none => simp [detectQuestionForTab, hu, hcond, hmf, hp]
    | some p =>
      by_cases hpn : p.number = parseDigits info.questionNumber <;>
        simp [detectQuestionForTab, hu, hcond, hmf, hp, hpn]

/-- C2: on a detection event with a valid question tab and a successful
extraction, while the current question is `Ready num`: a detected
number equal to `num` always clears the pending question (it is never
set); a differing number sets the pending question to the detected
number and title when none with that number is present, and a repeated
detection of the same differing number returns the previous pending
value unchanged (no redundant update); detection is idempotent on the
pending question. -/
theorem detectQuestionForTab_pending_update (st : AppState) (t : Tab)
    (info : ExtractResult) (num : Nat) (title : String)
    (hq : st.question = Question.ready num title)
    (hu : isLeetCodeQuestionUrl t.url = true)
    (hok : info.ok = true) (hqn : info.questionNumber ≠ "") :
    (parseDigits info.questionNumber = num →
      (detectQuestionForTab st (some t) (some info)).pendingQuestion = none) ∧
    (parseDigits info.questionNumber ≠ num →
      st.pendingQuestion = none →
      (detectQuestionForTab st (some t) (some info)).pendingQuestion =
        some ⟨parseDigits info.questionNumber,
          titleOrDefault info.title info.questionNumber⟩) ∧
    (parseDigits info.questionNumber ≠ num →
      ∀ p, st.pendingQuestion = some p →
        p.number = parseDigits info.questionNumber →
        (detectQuestionForTab st (some t) (some info)).pendingQuestion =
          some p) ∧
    (parseDigits info.questionNumber ≠ num →
      ∀ p, st.pendingQuestion = some p →
        p.number ≠ parseDigits info.questionNumber →
        (detectQuestionForTab st (some t) (some info)).pendingQuestion =
          some ⟨parseDigits info.questionNumber,
            titleOrDefault info.title info.questionNumber⟩) ∧
    (detectQuestionForTab (detectQuestionForTab st (some t) (some info))
        (some t) (some info)).pendingQuestion =
      (detectQuestionForTab st (some t) (some info)).pendingQuestion := by
  have hcond : ¬ (info.ok = false ∨ info.questionNumber = "") := by
    intro h
    rcases h with h | h
    · rw [hok] at h; cases h
    · exact hqn h
  refine ⟨?_, ?_, ?_, ?_, ?_⟩
  · intro he
    have hm : questionMatchesNumber st.question
        (parseDigits info.questionNumber) = true := by
      simp [questionMatchesNumber, hq, he]
    simp [detectQuestionForTab, hu, hcond, hm]
  · intro hne hp
    have hm : questionMatchesNumber st.question
        (parseDigits info.questionNumber) = false := by
      simp [questionMatchesNumber, hq]
      exact fun h => absurd h.symm hne
    simp [detectQuestionForTab, hu, hcond, hm, hp]
  · intro hne p hp hpn
    have hm : questionMatchesNumber st.question
        (parseDigits info.questionNumber) = false := by
      simp [questionMatchesNumber, hq]
      exact fun h => absurd h.symm hne
    simp [detectQuestionForTab, hu, hcond, hm, hp, hpn]
  · intro hne p hp hpn
    have hm : questionMatchesNumber st.question
        (parseDigits info.questionNumber) = false := by
      simp [questionMatchesNumber, hq]
      exact fun h => absurd h.symm hne
    simp [detectQuestionForTab, hu, hcond, hm, hp, hpn]
  · have hqframe :
        (detectQuestionForTab st (some t) (some info)).question =
          st.question :=
      (detectQuestionForTab_shape st (some t) (some info)).elim
        (fun h => by rw [h]) (fun ⟨v, h⟩ => by rw [h])
    rw [detect_pending_formula _ _ _ hu hcond,
      detect_pending_formula _ _ _ hu hcond, hqframe]
    by_cases hm : questionMatchesNumber st.question
        (parseDigits info.questionNumber) = true
    · simp [hm]
    · have hmf : questionMatchesNumber st.question
          (parseDigits info.questionNumber) = false := by simpa using hm
      cases hp : st.pendingQuestion with
      | none => simp [hmf, hp]
      | some p =>
        by_cases hpn : p.number = parseDigits info.questionNumber <;>
          simp [hmf, hp, hpn]

/-- Closed instance of C2 at a concrete ready state and detection. -/
theorem detectQuestionForTab_pending_update_witness :
    (detectQuestionForTab
        { initialState none [] with question := Question.ready 17 "Q17" }
        (some ⟨"https://leetcode.com/problems/two-sum/", 3⟩)
        (some ⟨true, "42", "42. X", ""⟩)).pendingQuestion =
      some ⟨42, "42. X"⟩ :=
  (detectQuestionForTab_pending_update
    { initialState none [] with question := Question.ready 17 "Q17" }
    ⟨"https://leetcode.com/problems/two-sum/", 3⟩
    ⟨true, "42", "42. X", ""⟩ 17 "Q17" rfl (by decide) rfl
    (by decide)).2.1 (by decide) rfl

/-- C3: whatever the outcome of the remote deletion (success, non-ok
response or thrown error), after `resetSession` the session is null,
the durable session entry is removed, the transcript is empty, and the
initialized-map entry for the session's id is gone. -/
theorem resetSession_clears_local_state (st : AppState) (net : NetOutcome) :
    (resetSession st net).1.session = none ∧
    (resetSession st net).1.storageSession = none ∧
    (resetSession st net).1.messages = [] ∧
    (∀ s, st.session = some s → s.sessionId ≠ "" →
      lookupKey (resetSession st net).1.storageInit s.sessionId = none) := by
  refine ⟨rfl, rfl, rfl, ?_⟩
  intro s hs hsid
  show lookupKey
    (match st.session with
     | some s =>
       if s.sessionId ≠ "" ∧ (lookupKey st.storageInit s.sessionId).isSome then
         eraseKey st.storageInit s.sessionId
       else st.storageInit
     | none => st.storageInit) s.sessionId = none
  rw [hs]
  by_cases hmem : (lookupKey st.storageInit s.sessionId).isSome
  · simp only [hsid, hmem, and_true, ne_eq, not_false_eq_true, if_true]
    exact lookupKey_eraseKey _ _
  · cases hl : lookupKey st.storageInit s.sessionId with
    | none => simp only [hl, Option.isSome_none, and_false, Bool.false_eq_true,
        if_false]
    | some v => rw [hl] at hmem; exact absurd rfl hmem

/-- Closed instance of C3 with a failing remote deletion. -/
theorem resetSession_clears_local_state_witness :
    lookupKey
      (resetSession
        { initialState (some ⟨"sid1", "alice", "tok1"⟩)
            [("sid1", [(42, 5)])] with
          session := some ⟨"sid1", "alice", "tok1"⟩ }
        (NetOutcome.fail "boom")).1.storageInit "sid1" = none :=
  (resetSession_clears_local_state
    { initialState (some ⟨"sid1", "alice", "tok1"⟩) [("sid1", [(42, 5)])] with
      session := some ⟨"sid1", "alice", "tok1"⟩ }
    (NetOutcome.fail "boom")).2.2.2 ⟨"sid1", "alice", "tok1"⟩ rfl (by decide)

/-- C4: with a valid auth token and no truthy map entry for the pair,
the first initialization issues exactly the one `POST /questions` call
and records the entry only on success (a failing call leaves the map
unchanged); a second invocation for the same pair, with any network
oracle, issues no call, leaves the map unchanged and succeeds. -/
theorem ensureQuestionInitialized_once (storage : InitMap)
    (sid tok : String) (qn : Nat) (qt : String) (now : Nat)
    (htok : tok ≠ "")
    (hmap : entryTruthy ((lookupKey storage sid).getD []) qn = false)
    (hnow : now ≠ 0) :
    (ensureQuestionInitialized storage sid tok qn qt now
        NetOutcome.ok).2.1 =
      [Call.questions (buildAuthHeaders sid tok) qn
        (if qt = "" then none else some qt)] ∧
    (ensureQuestionInitialized storage sid tok qn qt now
        NetOutcome.ok).2.2 = Except.ok () ∧
    (∀ net2 qt2 now2,
      ensureQuestionInitialized
        (ensureQuestionInitialized storage sid tok qn qt now
          NetOutcome.ok).1 sid tok qn qt2 now2 net2 =
      ((ensureQuestionInitialized storage sid tok qn qt now
          NetOutcome.ok).1, [], Except.ok ())) ∧
    (∀ msg, (ensureQuestionInitialized storage sid tok qn qt now
        (NetOutcome.fail msg)).1 = storage) := by
  have hfirst : ensureQuestionInitialized storage sid tok qn qt now
      NetOutcome.ok =
      (setKey storage sid (setQ ((lookupKey storage sid).getD []) qn now),
       [Call.questions (buildAuthHeaders sid tok) qn
         (if qt = "" then none else some qt)], Except.ok ()) := by
    simp [ensureQuestionInitialized, hmap, htok]
  refine ⟨by rw [hfirst], by rw [hfirst], ?_, ?_⟩
  · intro net2 qt2 now2
    rw [hfirst]
    have hlook : lookupKey
        (setKey storage sid (setQ ((lookupKey storage sid).getD []) qn now))
        sid = some (setQ ((lookupKey storage sid).getD []) qn now) :=
      lookupKey_setKey _ _ _
    have htruthy : entryTruthy
        ((lookupKey (setKey storage sid
          (setQ ((lookupKey storage sid).getD []) qn now)) sid).getD []) qn =
        true := by
      rw [hlook]
      simp [entryTruthy, lookupQ_setQ, hnow]
    simp [ensureQuestionInitialized, htruthy]
  · intro msg
    simp [ensureQuestionInitialized, hmap, htok]

/-- Closed instance of C4 on an empty initial map. -/
theorem ensureQuestionInitialized_once_witness :
    ensureQuestionInitialized
      (ensureQuestionInitialized [] "sid1" "tok1" 7 "T" 111
        NetOutcome.ok).1 "sid1" "tok1" 7 "T2" 222 NetOutcome.ok =
    ((ensureQuestionInitialized [] "sid1" "tok1" 7 "T" 111
        NetOutcome.ok).1, [], Except.ok ()) :=
  (ensureQuestionInitialized_once [] "sid1" "tok1" 7 "T" 111
    (by decide) (by decide) (by decide)).2.2.1 NetOutcome.ok "T2" 222

/-- C5 counterexample: a session whose auth token is absent does NOT
prevent the remote deletion fetch during reset — `resetSession` issues
the `POST /delete_session` call (with the silently empty header object
from `buildAuthHeaders`) whenever a session object is present, so the
operation does not fail locally before the fetch. -/
theorem resetSession_missing_token_still_fetches_cex :
    (resetSession
      { initialState none [] with session := some ⟨"sid1", "u", ""⟩ }
      NetOutcome.ok).2 = [Call.deleteSession none] ∧
    [Call.deleteSession none] ≠ ([] : List Call) :=
  ⟨rfl, by decide⟩

/-- C5 amended: only the auth token is guarded, and only for question
registration, transcript fetch and chat send — each of those issues no
call when the token is empty; session deletion during reset issues no
call only when no session object is present, and with a session object
it always issues exactly the delete call carrying whatever headers
`buildAuthHeaders` yields (the empty object when either credential is
missing); an empty session identifier alone never prevents a call. -/
theorem missing_credentials_call_suppression :
    (∀ storage sid qn qt now net,
      (ensureQuestionInitialized storage sid "" qn qt now net).2.1 = []) ∧
    (∀ sid net, (hydrateMessages sid "" net).2.1 = []) ∧
    (∀ (st : AppState) (sid u : String) netC netH,
      (handleSendMessage { st with session := some ⟨sid, u, ""⟩ }
        netC netH).2 = []) ∧
    (∀ (st : AppState) net,
      (resetSession { st with session := none } net).2 = []) ∧
    (∀ (st : AppState) (sid u tok : String) net,
      (resetSession { st with session := some ⟨sid, u, tok⟩ } net).2 =
        [Call.deleteSession (buildAuthHeaders sid tok)]) := by
  refine ⟨?_, ?_, ?_, ?_, ?_⟩
  · intro storage sid qn qt now net
    unfold ensureQuestionInitialized
    by_cases h : entryTruthy ((lookupKey storage sid).getD []) qn = true
    · simp [h]
    · simp [h]
  · intro sid net
    simp [hydrateMessages]
  · intro st sid u netC netH
    cases hq : st.question <;>
      simp [handleSendMessage, hq] <;>
      by_cases hs : st.isSending <;> simp [hs]
  · intro st net
    rfl
  · intro st sid u tok net
    cases net <;> rfl

theorem initializeForQuestion_frame (st : AppState) (sess : SessionRec)
    (n : Nat) (ttl : String) (now : Nat) (netQ : NetOutcome)
    (netH : HydOutcome) :
    (initializeForQuestion st sess n ttl now netQ netH).1.pendingQuestion =
      st.pendingQuestion ∧
    (initializeForQuestion st sess n ttl now netQ netH).1.question =
      st.question := by
  unfold initializeForQuestion
  by_cases h : sess.authToken = ""
  · simp [h]
  · simp only [h, if_false]
    cases hr : (ensureQuestionInitialized st.storageInit sess.sessionId
        sess.authToken n ttl now netQ).2.2 with
    | error msg => exact ⟨rfl, rfl⟩
    | ok u =>
      cases hh : (hydrateMessages sess.sessionId sess.authToken netH).2.2 with
      | error msg => exact ⟨rfl, rfl⟩
      | ok u => exact ⟨rfl, rfl⟩

theorem bootstrap_pendingQuestion (st : AppState) (o : BootOracle) :
    (bootstrap st o).1.pendingQuestion = st.pendingQuestion := by
  cases hss : st.storageSession with
  | none =>
    cases hat : o.activeTab with
    | none => simp [bootstrap, hss, hat]
    | some tab =>
      by_cases hu : isLeetCodeQuestionUrl tab.url
      · by_cases hok : o.extract.ok = false ∨ o.extract.questionNumber = ""
        · simp [bootstrap, hss, hat, hu, hok]
        · simp [bootstrap, hss, hat, hu, hok]
      · simp [bootstrap, hss, hat, hu]
  | some s =>
    by_cases hcred : s.sessionId ≠ "" ∧ s.authToken ≠ ""
    · cases hat : o.activeTab with
      | none => simp [bootstrap, hss, hat, hcred]
      | some tab =>
        by_cases hu : isLeetCodeQuestionUrl tab.url
        · by_cases hok : o.extract.ok = false ∨ o.extract.questionNumber = ""
          · simp [bootstrap, hss, hat, hcred, hu, hok]
          · simp [bootstrap, hss, hat, hcred, hu, hok,
              initializeForQuestion_frame]
        · simp [bootstrap, hss, hat, hcred, hu]
    · cases hat : o.activeTab with
      | none => simp [bootstrap, hss, hat, hcred]
      | some tab =>
        by_cases hu : isLeetCodeQuestionUrl tab.url
        · by_cases hok : o.extract.ok = false ∨ o.extract.questionNumber = ""
          · simp [bootstrap, hss, hat, hcred, hu, hok]
          · simp [bootstrap, hss, hat, hcred, hu, hok,
              initializeForQuestion_frame]
        · simp [bootstrap, hss, hat, hcred, hu]

theorem createSessionWithName_frame (st : AppState) (name : String)
    (qo : Option Question) (o : CreateOracle) :
    (createSessionWithName st name qo o).1.pendingQuestion =
      st.pendingQuestion ∧
    (createSessionWithName st name qo o).1.question = st.question := by
  unfold createSessionWithName
  cases o.create with
  | fail msg => exact ⟨rfl, rfl⟩
  | ok sid uname tok =>
    by_cases ht : tok = ""
    · simp [ht]
    · simp only [ht, if_false]
      cases hq : qo.getD st.question with
      | ready n ttl =>
        exact ⟨(initializeForQuestion_frame _ _ _ _ _ _ _).1,
          (initializeForQuestion_frame _ _ _ _ _ _ _).2⟩
      | checking => exact ⟨rfl, rfl⟩
      | loading => exact ⟨rfl, rfl⟩
      | notLeetCode => exact ⟨rfl, rfl⟩
      | error msg => exact ⟨rfl, rfl⟩

theorem detect_question_frame (st : AppState) (tab : Option Tab)
    (ext : Option ExtractResult) :
    (detectQuestionForTab st tab ext).question = st.question := by
  rcases detectQuestionForTab_shape st tab ext with h | ⟨v, h⟩ <;> simp [h]

theorem detect_pending_sound (st : AppState) (tab : Option Tab)
    (ext : Option ExtractResult) (p : PendingQ)
    (h : (detectQuestionForTab st tab ext).pendingQuestion = some p) :
    st.pendingQuestion = some p ∨
    questionMatchesNumber st.question p.number = false := by
  cases tab with
  | none => simp [detectQuestionForTab] at h
  | some t =>
    by_cases hu : isLeetCodeQuestionUrl t.url
    · cases ext with
      | none =>
        simp [detectQuestionForTab, hu] at h
        exact Or.inl h
      | some info =>
        by_cases hok : info.ok = false ∨ info.questionNumber = ""
        · simp [detectQuestionForTab, hu, hok] at h
        · by_cases hm : questionMatchesNumber st.question
              (parseDigits info.questionNumber) = true
          · simp [detectQuestionForTab, hu, hok, hm] at h
          · have hmf : questionMatchesNumber st.question
                (parseDigits info.questionNumber) = false := by simpa using hm
            cases hp : st.pendingQuestion with
            | none =>
              simp [detectQuestionForTab, hu, hok, hmf, hp] at h
              right
              rw [← h]
              exact hmf
            | some q =>
              by_cases hqn : q.number = parseDigits info.questionNumber
              · simp [detectQuestionForTab, hu, hok, hmf, hp, hqn] at h
                left
                rw [h]
              · simp [detectQuestionForTab, hu, hok, hmf, hp, hqn] at h
                right
                rw [← h]
                exact hmf
    · simp [detectQuestionForTab, hu] at h

theorem handleReloadForNewQuestion_pending (st : AppState) (netD : NetOutcome)
    (bo : BootOracle) (co : CreateOracle) :
    (handleReloadForNewQuestion st netD bo co).1.pendingQuestion = none := by
  simp only [handleReloadForNewQuestion]
  by_cases hn : jsTrimStr st.username = ""
  · simp only [hn, if_true]
    rw [bootstrap_pendingQuestion]
    cases st.session <;> rfl
  · simp only [hn, if_false]
    rw [(createSessionWithName_frame _ _ _ _).1, bootstrap_pendingQuestion]
    cases st.session <;> rfl

/-- The synchronization invariant: a non-null pending question never
carries the number of the currently ready question. -/
def PendingInv (st : AppState) : Prop :=
  ∀ p num title, st.pendingQuestion = some p →
    st.question = Question.ready num title → p.number ≠ num

theorem pendingInv_of_frame {st st' : AppState}
    (hp : st'.pendingQuestion = st.pendingQuestion)
    (hq : st'.question = st.question) (h : PendingInv st) : PendingInv st' := by
  intro p num title h1 h2
  rw [hp] at h1
  rw [hq] at h2
  exact h p num title h1 h2

/-- The states reachable through the synchronization state machine:
the mounted initial state, a bootstrap from it, and closure under
background detection, session creation, session reset and
reload-for-new-question. -/
inductive Reachable : AppState → Prop where
  | start (ss : Option SessionRec) (si : InitMap) :
      Reachable (initialState ss si)
  | boot (ss : Option SessionRec) (si : InitMap) (o : BootOracle) :
      Reachable (bootstrap (initialState ss si) o).1
  | detect (st : AppState) (tab : Option Tab) (ext : Option ExtractResult) :
      Reachable st → Reachable (detectQuestionForTab st tab ext)
  | create (st : AppState) (o : CreateOracle) :
      Reachable st → Reachable (handleCreateSession st o).1
  | reset (st : AppState) (net : NetOutcome) :
      Reachable st → Reachable (resetSession st net).1
  | reload (st : AppState) (netD : NetOutcome) (bo : BootOracle)
      (co : CreateOracle) :
      Reachable st → Reachable (handleReloadForNewQuestion st netD bo co).1

/-- C9: every state reachable through the synchronization operations
(bootstrap, background detection, reload-for-new-question, create
session, reset session) satisfies the invariant: whenever the pending
question is non-null and the current question is ready, the pending
number differs from the ready question's number. -/
theorem reachable_pending_invariant (st : AppState) (h : Reachable st) :
    PendingInv st := by
  induction h with
  | start ss si =>
    intro p num title hp hq
    exact Option.noConfusion hp
  | boot ss si o =>
    intro p num title hp hq
    rw [bootstrap_pendingQuestion] at hp
    exact Option.noConfusion hp
  | detect st tab ext hr ih =>
    intro p num title hp hq
    rw [detect_question_frame] at hq
    rcases detect_pending_sound st tab ext p hp with hold | hnomatch
    · exact ih p num title hold hq
    · rw [hq] at hnomatch
      simp only [questionMatchesNumber, decide_eq_false_iff_not] at hnomatch
      exact fun he => hnomatch (he.symm)
  | create st o hr ih =>
    refine pendingInv_of_frame ?_ ?_ ih
    · show (handleCreateSession st o).1.pendingQuestion = st.pendingQuestion
      unfold handleCreateSession
      by_cases hn : jsTrimStr st.username = ""
      · simp [hn]
      · simp only [hn, if_false]
        exact (createSessionWithName_frame _ _ _ _).1
    · show (handleCreateSession st o).1.question = st.question
      unfold handleCreateSession
      by_cases hn : jsTrimStr st.username = ""
      · simp [hn]
      · simp only [hn, if_false]
        exact (createSessionWithName_frame _ _ _ _).2
  | reset st net hr ih =>
    exact pendingInv_of_frame rfl rfl ih
  | reload st netD bo co hr ih =>
    intro p num title hp hq
    rw [handleReloadForNewQuestion_pending] at hp
    exact Option.noConfusion hp

/-- Closed instance of C9 at the mounted initial state. -/
theorem reachable_pending_invariant_witness :
    PendingInv (initialState none []) :=
  reachable_pending_invariant (initialState none []) (Reachable.start none [])
